import Mathlib

/-! # supervise: process supervisor, fork guard and self-pipe signal monitor

A shallow embedding of `src/lib/processsupervisor` and `src/lib/signalmonitor`.

* The supervisor's callbacks (`std::function` members) are state transformers over an
  arbitrary world state `σ`; an unset callback is `none`.
* The operating system is a record of primitives over the same `σ` (`fork`, `wait`, the
  content of `/proc/self/status`).
* Every callback invocation and system call made by the code is recorded in a trace of
  `Call`s, so that "how often" and "in which order" are statements about the result.
-/

namespace Supervise

/-! ## `<sys/wait.h>` status macros

The macros are those of glibc (`bits/waitstatus.h`).  A status is a C `int`; on a two's
complement `int`, `s & 0x7f` is `s % 128` and `(s & 0xff00) >> 8` is `(s / 256) % 256`
(Lean's `/` and `%` on `Int` round towards minus infinity for a positive divisor). -/

/-- Macro `WTERMSIG(status)`: `status & 0x7f`. -/
def WTERMSIG (status : Int) : Int := status % 128

/-- Macro `WEXITSTATUS(status)`: `(status & 0xff00) >> 8`. -/
def WEXITSTATUS (status : Int) : Int := (status / 256) % 256

/-- Macro `WIFEXITED(status)`: `WTERMSIG(status) == 0`. -/
def WIFEXITED (status : Int) : Bool := WTERMSIG status == 0

/-- Macro `WIFSIGNALED(status)`: `((signed char) ((status & 0x7f) + 1) >> 1) > 0`. -/
def WIFSIGNALED (status : Int) : Bool :=
  let v := status % 128 + 1
  let sc := if 128 ≤ v then v - 256 else v
  decide (0 < sc / 2)

/-- Status the kernel reports for a child that called `exit(code)`. -/
def exitedStatus (code : Int) : Int := (code % 256) * 256

/-- Status the kernel reports for a child killed by signal `sig` (`1 ≤ sig ≤ 126`),
with or without a core dump (bit `0x80`). -/
def signaledStatus (sig : Int) (core : Bool) : Int := sig + (if core then 128 else 0)

/-! ## Trace of observable calls -/

/-- One observable action of the supervisor. -/
inductive Call where
  /-- Call of `m_prefork()`. -/
  | prefork
  /-- Call of `m_fork()`, which returned `pid`. -/
  | forkRoutine (pid : Int)
  /-- System call `fork()`, which returned `pid`. -/
  | fork (pid : Int)
  /-- System call `prctl(PR_SET_PDEATHSIG, signo)`. -/
  | pdeathsig (signo : Int)
  /-- Call of `m_child()`, which returned `code`. -/
  | childRoutine (code : Int)
  /-- Call of `m_postfork(pid)`. -/
  | postfork (pid : Int)
  /-- System call `wait(&status)`, which returned `child` and left `status` in the variable. -/
  | wait (child status : Int)
  /-- Call of `m_log(msg)`. -/
  | log (msg : String)
  /-- Call of `m_restartCheck(status)`, which returned `verdict`. -/
  | restartCheck (status : Int) (verdict : Bool)
  /-- Call of `m_prerestart()`. -/
  | prerestart
  deriving DecidableEq, Repr

/-- Ways in which control leaves the supervisor other than by `return`. -/
inductive Abort where
  /-- Statement `throw SafeForkError(...)`. -/
  | SafeForkError
  /-- Statement `throw BadChildRoutine(...)`. -/
  | BadChildRoutine
  /-- Call of `exit(code)`. -/
  | exit (code : Int)
  deriving DecidableEq, Repr

/-! ## Fork guard (`safefork.cpp`)

C library pieces used by `get_process_threads_count`, in the "C" locale. -/

/-- Function `isspace(c)`: space, `\t`, `\n`, `\v`, `\f`, `\r`. -/
def isspace (c : Char) : Bool :=
  c == ' ' || c == '\t' || c == '\n' || c == '\x0b' || c == '\x0c' || c == '\r'

/-- Function `isdigit(c)`. -/
def isdigit (c : Char) : Bool := decide ('0' ≤ c) && decide (c ≤ '9')

/-- Constant `ULONG_MAX` on LP64. -/
def ULONG_MAX : Nat := 2 ^ 64 - 1

/-- Value of the longest run of decimal digits at the head of the text, continuing from
`acc`; parsing stops at the first character that is not a digit (a NUL included). -/
def digitsValue : List Char → Nat → Nat
  | [], acc => acc
  | c :: cs, acc => if isdigit c then digitsValue cs (acc * 10 + (c.toNat - 48)) else acc

/-- Function `strtoul(nptr, nullptr, 10)`: skip white space, take an optional sign, convert the
digits; no digits give 0, a value above `ULONG_MAX` gives `ULONG_MAX`, a minus sign negates
in `unsigned long`. -/
def strtoul (nptr : List Char) : Nat :=
  let body := nptr.dropWhile isspace
  let signed : Bool × List Char :=
    match body with
    | '-' :: r => (true, r)
    | '+' :: r => (false, r)
    | _ => (false, body)
  let v := digitsValue signed.2 0
  if ULONG_MAX < v then ULONG_MAX
  else if signed.1 then (2 ^ 64 - v) % 2 ^ 64 else v

/-- Conversion of an `unsigned long` to `ssize_t` (the assignment `count = strtoul(...)`). -/
def toSsize (v : Nat) : Int := if v < 2 ^ 63 then (v : Int) else (v : Int) - 2 ^ 64

/-- The lines that successive `getline(ifs, line)` calls deliver: each is ended by a
newline, which is dropped; a last line without newline is delivered when it is not empty.
`cur` holds the current line reversed. -/
def getlinesAux : List Char → List Char → List (List Char)
  | [], cur => if cur.isEmpty then [] else [cur.reverse]
  | c :: cs, cur =>
    if c = '\n' then cur.reverse :: getlinesAux cs [] else getlinesAux cs (c :: cur)

/-- All lines of a stream, in order. -/
def getlines (content : List Char) : List (List Char) := getlinesAux content []

/-- Method `line.find(pat)`: index of the first occurrence, `none` for `string::npos`. -/
def find : List Char → List Char → Option Nat
  | [], pat => if pat.isEmpty then some 0 else none
  | c :: cs, pat =>
    if pat.isPrefixOf (c :: cs) then some 0 else (find cs pat).map (· + 1)

/-- The array `subline[] = "Threads:\0"` without the terminator the compiler appends. -/
def subline : List Char := "Threads:".toList ++ ['\x00']

/-- Value of `sizeof(subline)`: the written characters plus the implicit terminator (10). -/
def sizeofSubline : Nat := subline.length + 1

/-- The C string an array of characters denotes: everything before the first NUL. -/
def cstr (a : List Char) : List Char := a.takeWhile (· != '\x00')

/-- The `while (getline(ifs, line))` loop of `get_process_threads_count`; `count` starts
at -1.  `slack` is the memory that follows the terminating NUL of `line.c_str()`: the
pointer `line.c_str() + pos + sizeof(subline) - 1` lies 9 characters after the match and
reaches that memory when the line ends right after `Threads:`. -/
def scanLines (slack : List Char) : List (List Char) → Int
  | [] => -1
  | line :: rest =>
    match find line (cstr subline) with
    | some pos => toSsize (strtoul ((line ++ '\x00' :: slack).drop (pos + sizeofSubline - 1)))
    | none => scanLines slack rest

/-- Function `get_process_threads_count()`.  `ifs` is the content of `/proc/self/status`, `none`
when the file cannot be opened. -/
def get_process_threads_count (ifs : Option (List Char)) (slack : List Char) : Int :=
  match ifs with
  | none => -1
  | some content => scanLines slack (getlines content)

/-! ### The status file as the kernel writes it -/

/-- The character of a decimal digit. -/
def digitChar (d : Nat) : Char := Char.ofNat (48 + d)

/-- Decimal digits of `n` in front of `acc`; `fuel` bounds the number of digits. -/
def decimalAux : Nat → Nat → List Char → List Char
  | 0, _, acc => acc
  | fuel + 1, n, acc =>
    if n < 10 then digitChar n :: acc
    else decimalAux fuel (n / 10) (digitChar (n % 10) :: acc)

/-- The text `%d` prints for a natural number. -/
def decimal (n : Nat) : List Char := decimalAux (n + 1) n []

/-- The line of `/proc/self/status` that gives the number of threads
(`"Threads:\t%d\n"` in the kernel), without its newline. -/
def threadsEntry (n : Nat) : List Char := "Threads:\t".toList ++ decimal n

/-- A status file of a process with `n` threads (abridged). -/
def sampleStatus (n : Nat) : List Char :=
  "Name:\tsupervise\nState:\tR (running)\nPid:\t4242\n".toList
    ++ threadsEntry n ++ "\nSigQ:\t0/63432\n".toList

/-- Operating-system primitives the code calls, over a world state `σ`. -/
structure Sys (σ : Type) where
  /-- Content of `/proc/self/status`; `none` when the file cannot be opened. -/
  procSelfStatus : σ → Option (List Char)
  /-- Memory behind the terminating NUL of the line buffer (see `scanLines`). -/
  slack : σ → List Char
  /-- System call `fork()`: the value it returns in the process being followed. -/
  fork : σ → Int × σ
  /-- System call `wait(&status)`: the identifier it returns and the value it leaves in
  `status` (after a failed call, whatever the variable then holds). -/
  wait : σ → (Int × Int) × σ

/-- What a piece of code did: how it ended, the world it left, the calls it made. -/
structure Ran (σ α : Type) where
  /-- Returned value, or the way control left. -/
  result : Except Abort α
  /-- World state afterwards. -/
  state : σ
  /-- Calls made, in order. -/
  trace : List Call

/-- Function `safe_fork()`: throws when more than one thread is counted, else forks. -/
def safe_fork {σ : Type} (sys : Sys σ) (s : σ) : Ran σ Int :=
  let threads := get_process_threads_count (sys.procSelfStatus s) (sys.slack s)
  if threads > 1 then
    ⟨.error .SafeForkError, s, []⟩
  else
    let r := sys.fork s
    ⟨.ok r.1, r.2, [.fork r.1]⟩

/-! ## Process supervisor (`processsupervisor.cpp`) -/

/-- Members of `ProcessSupervisor`; an empty `std::function` is `none`. -/
structure ProcessSupervisor (σ : Type) where
  m_prefork : Option (σ → σ) := none
  m_postfork : Option (Int → σ → σ) := none
  m_restartCheck : Option (Int → σ → Bool × σ) := none
  m_prerestart : Option (σ → σ) := none
  m_log : Option (String → σ → σ) := none
  m_fork : Option (σ → Int × σ) := none
  m_child : Option (σ → Int × σ) := none
  /-- Defaults to `SIGTERM`. -/
  m_childSignal : Int := 15

/-- Method `defaultForkRoutine()`. -/
def defaultForkRoutine {σ : Type} (self : ProcessSupervisor σ) (sys : Sys σ) (s : σ) :
    Ran σ Int :=
  let f := safe_fork sys s
  match f.result with
  | .error e => ⟨.error e, f.state, f.trace⟩
  | .ok pid =>
    if pid = -1 then
      ⟨.error (.exit 1), f.state, f.trace⟩
    else if pid = 0 then
      match self.m_child with
      | none => ⟨.error .BadChildRoutine, f.state, f.trace ++ [.pdeathsig self.m_childSignal]⟩
      | some child =>
        let c := child f.state
        ⟨.error (.exit c.1), c.2,
          f.trace ++ [.pdeathsig self.m_childSignal, .childRoutine c.1]⟩
    else
      ⟨.ok pid, f.state, f.trace⟩

/-- The text handed to `m_log` for a status. -/
def logLine (status : Int) : String :=
  "child exits: st=" ++ toString status
    ++ ", signaled=" ++ toString (WIFSIGNALED status)
    ++ ", signal=" ++ toString (WTERMSIG status)
    ++ ", exited=" ++ toString (WIFEXITED status)
    ++ ", status=" ++ toString (WEXITSTATUS status)

/-- The `if (m_log) { ... }` block after a `wait`. -/
def logEvent {σ : Type} (self : ProcessSupervisor σ) (status : Int) (s : σ) :
    σ × List Call :=
  match self.m_log with
  | some log => (log (logLine status) s, [.log (logLine status)])
  | none => (s, [])

/-- The calls of the `if (m_log) { ... }` block for a status. -/
def logCalls {σ : Type} (self : ProcessSupervisor σ) (status : Int) : List Call :=
  match self.m_log with
  | some _ => [.log (logLine status)]
  | none => []

/-- The calls the wait loop makes for a run of events it skips: each `wait`, then its
log block. -/
def strayCalls {σ : Type} (self : ProcessSupervisor σ) : List (Int × Int) → List Call
  | [] => []
  | ev :: evs => Call.wait ev.1 ev.2 :: (logCalls self ev.2 ++ strayCalls self evs)

/-- Lines 96-98 of `start()`: `restart = WIFSIGNALED(status); if (m_restartCheck)
restart = m_restartCheck(status);`. -/
def restartDecision {σ : Type} (self : ProcessSupervisor σ) (status : Int) (s : σ) :
    Bool × σ × List Call :=
  let restart := WIFSIGNALED status
  match self.m_restartCheck with
  | some check =>
    let r := check status s
    (r.1, r.2, [.restartCheck status r.1])
  | none => (restart, s, [])

/-- Values of the locals `restart` and `status` when the wait loop is left by `break`. -/
structure CycleEnd (σ : Type) where
  restart : Bool
  status : Int
  state : σ
  trace : List Call

/-- The body of `if (child == pid) { ... break; }`. -/
def ownChildExited {σ : Type} (self : ProcessSupervisor σ) (status : Int) (s : σ) :
    CycleEnd σ :=
  let d := restartDecision self status s
  let status' := if WIFEXITED status then WEXITSTATUS status else 0
  if d.1 then
    match self.m_prerestart with
    | some prerestart => ⟨d.1, status', prerestart d.2.1, d.2.2 ++ [.prerestart]⟩
    | none => ⟨d.1, status', d.2.1, d.2.2⟩
  else
    ⟨d.1, status', d.2.1, d.2.2⟩

/-- The `while (true)` wait loop of `start()` for the child `pid`; `fuel` bounds the
number of `wait` calls, `none` means the bound was reached. -/
def waitLoop {σ : Type} (self : ProcessSupervisor σ) (sys : Sys σ) (pid : Int) :
    Nat → σ → Option (CycleEnd σ)
  | 0, _ => none
  | fuel + 1, s =>
    let w := sys.wait s
    let child := w.1.1
    let status := w.1.2
    let l := logEvent self status w.2
    if child = pid then
      let e := ownChildExited self status l.1
      some ⟨e.restart, e.status, e.state, .wait child status :: l.2 ++ e.trace⟩
    else
      (waitLoop self sys pid fuel l.1).map fun e =>
        ⟨e.restart, e.status, e.state, .wait child status :: l.2 ++ e.trace⟩

/-- The part of the outer loop body before the wait loop: pre-fork hook, creation,
post-fork hook.  Returns the `pid` of the supervised child. -/
def spawn {σ : Type} (self : ProcessSupervisor σ) (sys : Sys σ) (s : σ) : Ran σ Int :=
  let p : σ × List Call :=
    match self.m_prefork with
    | some prefork => (prefork s, [.prefork])
    | none => (s, [])
  let f : Ran σ Int :=
    match self.m_fork with
    | some fork => let r := fork p.1; ⟨.ok r.1, r.2, [.forkRoutine r.1]⟩
    | none => defaultForkRoutine self sys p.1
  match f.result with
  | .error e => ⟨.error e, f.state, p.2 ++ f.trace⟩
  | .ok pid =>
    match self.m_postfork with
    | some postfork => ⟨.ok pid, postfork pid f.state, p.2 ++ f.trace ++ [.postfork pid]⟩
    | none => ⟨.ok pid, f.state, p.2 ++ f.trace⟩

/-- Method `start()`.  `restart` is initially true, so the loop body runs at least once.
`cycles` bounds the iterations of the outer loop and `waits` the `wait` calls of each
cycle; `none` means a bound was reached before the method returned. -/
def start {σ : Type} (self : ProcessSupervisor σ) (sys : Sys σ) (waits : Nat) :
    Nat → σ → Option (Ran σ Int)
  | 0, _ => none
  | cycles + 1, s =>
    let sp := spawn self sys s
    match sp.result with
    | .error e => some ⟨.error e, sp.state, sp.trace⟩
    | .ok pid =>
      match waitLoop self sys pid waits sp.state with
      | none => none
      | some e =>
        if e.restart then
          (start self sys waits cycles e.state).map fun r =>
            ⟨r.result, r.state, sp.trace ++ e.trace ++ r.trace⟩
        else
          some ⟨.ok e.status, e.state, sp.trace ++ e.trace⟩

/-! ### Reading a trace -/

/-- The `wait` calls of a trace, in order. -/
def waitEvents : List Call → List (Int × Int)
  | [] => []
  | .wait child status :: cs => (child, status) :: waitEvents cs
  | _ :: cs => waitEvents cs

/-- The identifiers returned by the creation steps of a trace (`m_fork()`, or the
`fork()` of the default routine), in order. -/
def created : List Call → List Int
  | [] => []
  | .forkRoutine pid :: cs => pid :: created cs
  | .fork pid :: cs => pid :: created cs
  | _ :: cs => created cs

/-- The last `wait` call of a trace: the identifier returned and the status left. -/
def lastWait (t : List Call) : Option (Int × Int) := (waitEvents t).getLast?

/-- The identifier returned by the last creation step of a trace. -/
def lastCreated (t : List Call) : Option Int := (created t).getLast?

/-- The messages passed to `m_log`, in order. -/
def logged : List Call → List String
  | [] => []
  | .log msg :: cs => msg :: logged cs
  | _ :: cs => logged cs

/-! ### Replaying a trace

A trace names the callbacks and system calls made and the values they returned.
Replaying it applies those same callbacks and system calls, in that order, to a world:
the result is the world they leave, or `none` when a call of the trace is not available
to this supervisor or returns something else than what the trace records. -/

/-- The world one recorded call leaves, `none` when the callback is not set or the call
does not return the recorded value in this world. -/
def Call.effect {σ : Type} (self : ProcessSupervisor σ) (sys : Sys σ) : Call → σ → Option σ
  | .prefork, s => self.m_prefork.map fun prefork => prefork s
  | .forkRoutine pid, s =>
    match self.m_fork with
    | some routine => if (routine s).1 = pid then some (routine s).2 else none
    | none => none
  | .fork pid, s => if (sys.fork s).1 = pid then some (sys.fork s).2 else none
  | .pdeathsig signo, s => if signo = self.m_childSignal then some s else none
  | .childRoutine code, s =>
    match self.m_child with
    | some child => if (child s).1 = code then some (child s).2 else none
    | none => none
  | .postfork pid, s => self.m_postfork.map fun postfork => postfork pid s
  | .wait child status, s =>
    if (sys.wait s).1 = (child, status) then some (sys.wait s).2 else none
  | .log msg, s => self.m_log.map fun log => log msg s
  | .restartCheck status verdict, s =>
    match self.m_restartCheck with
    | some check => if (check status s).1 = verdict then some (check status s).2 else none
    | none => none
  | .prerestart, s => self.m_prerestart.map fun prerestart => prerestart s

/-- The world a trace leaves when its calls are made one after the other from `s`. -/
def replay {σ : Type} (self : ProcessSupervisor σ) (sys : Sys σ) : List Call → σ → Option σ
  | [], s => some s
  | c :: cs, s => (Call.effect self sys c s).bind (replay self sys cs)

/-- The calls of the body of `if (child == pid) { ... }` when the decision taken is
`restart`: the restart-check callback when it is set, the pre-restart hook when it is set
and the decision is to restart. -/
def decisionCalls {σ : Type} (self : ProcessSupervisor σ) (status : Int) (restart : Bool) :
    List Call :=
  (match self.m_restartCheck with
    | some _ => [Call.restartCheck status restart]
    | none => [])
  ++ (if restart then
        match self.m_prerestart with
        | some _ => [Call.prerestart]
        | none => []
      else [])

/-! ### A scripted world

The answers of the environment, indexed by the number of the call: what the `k`-th
creation returns, what the `k`-th `wait` returns, what the `k`-th call of the restart-check
callback returns.  The hooks act on a user state `υ`.  The supervisor is sequential, so a
run in any world is the run of the script made of the answers it was given. -/

/-- World state of a scripted run: the number of calls made so far, and the user state. -/
structure Scripted (υ : Type) where
  forks : Nat
  waits : Nat
  checks : Nat
  user : υ

/-- The script of a run. -/
structure Script (υ : Type) where
  /-- Identifier returned by the `k`-th creation (`m_fork()`, or `fork()`). -/
  pidOf : Nat → Int
  /-- Result of the `k`-th `wait`. -/
  eventOf : Nat → Int × Int
  /-- Result of the `k`-th call of the restart-check callback, when one is set. -/
  verdictOf : Option (Nat → Int → Bool)
  /-- Whether a creation routine is set with `setForkRoutine`. -/
  customFork : Bool
  /-- Content of `/proc/self/status`. -/
  statusFile : Option (List Char)
  /-- Memory behind the terminating NUL of the line buffer of the thread count. -/
  slack : List Char
  prefork : Option (υ → υ)
  postfork : Option (Int → υ → υ)
  prerestart : Option (υ → υ)
  log : Option (String → υ → υ)

/-- The operating system of a scripted run. -/
def Script.sys {υ : Type} (sc : Script υ) : Sys (Scripted υ) where
  procSelfStatus := fun _ => sc.statusFile
  slack := fun _ => sc.slack
  fork := fun s => (sc.pidOf s.forks, { s with forks := s.forks + 1 })
  wait := fun s => (sc.eventOf s.waits, { s with waits := s.waits + 1 })

/-- The supervisor of a scripted run. -/
def Script.supervisor {υ : Type} (sc : Script υ) : ProcessSupervisor (Scripted υ) where
  m_prefork := sc.prefork.map fun h s => { s with user := h s.user }
  m_postfork := sc.postfork.map fun h pid s => { s with user := h pid s.user }
  m_restartCheck := sc.verdictOf.map fun v status s =>
    (v s.checks status, { s with checks := s.checks + 1 })
  m_prerestart := sc.prerestart.map fun h s => { s with user := h s.user }
  m_log := sc.log.map fun h msg s => { s with user := h msg s.user }
  m_fork :=
    if sc.customFork then
      some fun s => (sc.pidOf s.forks, { s with forks := s.forks + 1 })
    else none
  m_child := none

/-- The restart policy in force in a scripted run: the callback when set, else the
default. -/
def Script.policy {υ : Type} (sc : Script υ) (k : Nat) (status : Int) : Bool :=
  match sc.verdictOf with
  | some v => v k status
  | none => WIFSIGNALED status

/-- Number of the first `wait` of cycle `k`, when `ends j` is the number of the `wait`
that ends cycle `j` and the run starts with `wait` number `first`. -/
def cycleBegin (first : Nat) (ends : Nat → Nat) : Nat → Nat
  | 0 => first
  | k + 1 => ends k + 1

/-! ### A sample run

Three cycles under the default restart policy, with a creation routine set: the
children are 100, 101 and 102; the first is killed by signal 9 after the exit of an
unrelated child 55, the second by signal 11, the third exits with code 7 after the exit
of an unrelated child 7. -/

/-- Events of the sample run. -/
def sampleEvents : Nat → Int × Int
  | 0 => (55, exitedStatus 0)
  | 1 => (100, signaledStatus 9 false)
  | 2 => (101, signaledStatus 11 true)
  | 3 => (7, exitedStatus 1)
  | _ => (102, exitedStatus 7)

/-- Number of the `wait` call that ends each cycle of the sample run. -/
def sampleEnds : Nat → Nat
  | 0 => 1
  | 1 => 2
  | _ => 4

/-- Script of the sample run: all hooks set, acting on a counter. -/
def sampleScript : Script Nat where
  pidOf := fun k => 100 + k
  eventOf := sampleEvents
  verdictOf := none
  customFork := true
  statusFile := none
  slack := []
  prefork := some fun u => u + 1
  postfork := some fun _ u => u
  prerestart := some fun u => u + 1000
  log := some fun _ u => u

/-- The sample script with only the pre-fork and pre-restart hooks set. -/
def sampleHooks : Script Nat :=
  { sampleScript with postfork := none, log := none }

/-- Initial world of the sample run. -/
def sampleInit : Scripted Nat := ⟨0, 0, 0, 0⟩

/-! ## Signal monitor (`signalmonitor.cpp`, `signalmonitor.h`) -/

/-! ### The self pipe

`m_signalPipe` is a pipe whose two ends are non-blocking.  A byte is a number below 256. -/

/-- A pipe: the bytes written and not yet read, oldest first, and the number of bytes
the kernel buffers for it. -/
structure Pipe where
  data : List Int
  capacity : Nat

/-- System call `write(fd, &ch, 1)` on the non-blocking write end: the byte is queued and
1, the number of bytes written, is returned; on a full pipe nothing is queued and -1 is
returned (`EAGAIN`). -/
def Pipe.write (p : Pipe) (ch : Int) : Int × Pipe :=
  if p.data.length < p.capacity then (1, { p with data := p.data ++ [ch] })
  else (-1, p)

/-- System call `read(fd, &ch, 1)` on the non-blocking read end: the oldest byte, or
`none` for a return of -1 with `EAGAIN` when nothing is queued. -/
def Pipe.read (p : Pipe) : Option (Int × Pipe) :=
  match p.data with
  | [] => none
  | ch :: rest => some (ch, { p with data := rest })

/-- Where the worker thread stands in `SignalMonitor::run()`. -/
inductive WorkerPc where
  /-- About to test `while (!m_needStop)`. -/
  | loopHead
  /-- In `select()`. -/
  | select
  /-- In the `for (;;)` loop, about to `read`. -/
  | drain
  /-- A byte `ch` has been read; about to test `if (m_handler)`. -/
  | dispatch (ch : Int)
  /-- The function `run()` has returned. -/
  | finished
  deriving DecidableEq, Repr

/-- A `SignalMonitor` object together with its worker thread.  `handled` and `returned`
are records kept for the statements: the arguments the handler was invoked with, and the
values `sendMessage` returned, both in order. -/
structure SignalMonitor (υ : Type) where
  m_signalPipe : Pipe
  m_handler : Option (Int → υ → υ)
  m_needStop : Bool
  /-- Position of `m_thread` in `run()`. -/
  m_thread : WorkerPc
  /-- Whether `m_thread.join()` has returned. -/
  joined : Bool
  user : υ
  handled : List Int
  returned : List Int

/-- The conversion `(uint8_t)signo`. -/
def toUint8 (signo : Int) : Int := signo % 256

/-- Method `sendMessage(signo)`: `uint8_t ch = (uint8_t)signo; return ::write(m_signalPipe[1],
&ch, 1);`.  Gives the returned value and the monitor afterwards. -/
def SignalMonitor.sendMessage {υ : Type} (self : SignalMonitor υ) (signo : Int) :
    Int × SignalMonitor υ :=
  let ch := toUint8 signo
  let w := self.m_signalPipe.write ch
  (w.1, { self with m_signalPipe := w.2, returned := self.returned ++ [w.1] })

/-- Method `setHandler(handler)`. -/
def SignalMonitor.setHandler {υ : Type} (self : SignalMonitor υ) (handler : Int → υ → υ) :
    SignalMonitor υ :=
  { self with m_handler := some handler }

/-- State after the constructor: an empty pipe, no handler, `m_needStop = false`, the
worker thread at the start of `run()`. -/
def SignalMonitor.new {υ : Type} (capacity : Nat) (user : υ) : SignalMonitor υ where
  m_signalPipe := ⟨[], capacity⟩
  m_handler := none
  m_needStop := false
  m_thread := .loopHead
  joined := false
  user := user
  handled := []
  returned := []

/-- One step of the worker thread in `run()`.
* `loopHead`: leave the loop when `m_needStop` is set, else enter `select`.
* `select`: with data queued, `select` returns 1 and the drain loop is entered; with
  nothing queued the step is the expiry of the timeout (`ready == 0`, `continue`).
* `drain`: `read` one byte; `EAGAIN` ends the pass (`break`).
* `dispatch ch`: `if (m_handler) m_handler(ch);`, then the next `read`. -/
def SignalMonitor.run {υ : Type} (self : SignalMonitor υ) : SignalMonitor υ :=
  match self.m_thread with
  | .loopHead =>
    if self.m_needStop then { self with m_thread := .finished }
    else { self with m_thread := .select }
  | .select =>
    if self.m_signalPipe.data.isEmpty then { self with m_thread := .loopHead }
    else { self with m_thread := .drain }
  | .drain =>
    match self.m_signalPipe.read with
    | none => { self with m_thread := .loopHead }
    | some r => { self with m_signalPipe := r.2, m_thread := .dispatch r.1 }
  | .dispatch ch =>
    match self.m_handler with
    | some handler =>
      { self with user := handler ch self.user, handled := self.handled ++ [ch],
                  m_thread := .drain }
    | none => { self with m_thread := .drain }
  | .finished => self

/-- A statement of a thread that uses the monitor. -/
inductive CallerStep where
  /-- Call of `sendMessage(signo)`. -/
  | sendMessage (signo : Int)
  /-- Destructor: `m_needStop = true`. -/
  | setNeedStop
  /-- Destructor: `m_handler = MessageHandler()`. -/
  | clearHandler
  /-- Destructor: `sendMessage(255)`. -/
  | sendDummy
  /-- Destructor: `m_thread.join()`. -/
  | join
  deriving DecidableEq, Repr

/-- The thread part of `~SignalMonitor()`, lines 53-62 (`m_thread` is always joinable). -/
def destructorSteps : List CallerStep := [.setNeedStop, .clearHandler, .sendDummy, .join]

/-- Effect of one statement of the caller; `none` when the caller is blocked (`join` on
a worker that has not returned). -/
def SignalMonitor.callerStep {υ : Type} (self : SignalMonitor υ) :
    CallerStep → Option (SignalMonitor υ)
  | .sendMessage signo => some (self.sendMessage signo).2
  | .setNeedStop => some { self with m_needStop := true }
  | .clearHandler => some { self with m_handler := none }
  | .sendDummy => some (self.sendMessage 255).2
  | .join => if self.m_thread = .finished then some { self with joined := true } else none

/-- The thread that takes the next step. -/
inductive Thread where
  | caller
  | worker
  deriving DecidableEq, Repr

/-- Run the caller's program `prog` against the worker thread under a schedule; gives the
monitor at the end and what is left of the program.  A blocked or finished thread that is
scheduled does nothing. -/
def interleave {υ : Type} :
    List Thread → List CallerStep → SignalMonitor υ → SignalMonitor υ × List CallerStep
  | [], prog, m => (m, prog)
  | .worker :: sched, prog, m => interleave sched prog m.run
  | .caller :: sched, [], m => interleave sched [] m
  | .caller :: sched, c :: prog, m =>
    match m.callerStep c with
    | some m' => interleave sched prog m'
    | none => interleave sched (c :: prog) m

/-- The byte the worker holds between `read` and the handler call, if any. -/
def inFlight : WorkerPc → List Int
  | .dispatch ch => [ch]
  | _ => []

/-- The bytes of the `sendMessage` calls whose `write` did not fail, in order. -/
def accepted : List Int → List Int → List Int
  | signo :: signos, ret :: rets =>
    if ret = -1 then accepted signos rets else toUint8 signo :: accepted signos rets
  | _, _ => []

/-- Everything sent that the handler has seen or can still see: the bytes handled, the
byte in flight, the bytes queued. -/
def SignalMonitor.pending {υ : Type} (self : SignalMonitor υ) : List Int :=
  self.handled ++ inFlight self.m_thread ++ self.m_signalPipe.data

/-- A bound on the number of worker steps after which every queued byte has gone through
the handler call, when nothing more is sent. -/
def SignalMonitor.need {υ : Type} (self : SignalMonitor υ) : Nat :=
  match self.m_thread with
  | .loopHead =>
    if self.m_signalPipe.data.isEmpty then 0 else 2 * self.m_signalPipe.data.length + 2
  | .select =>
    if self.m_signalPipe.data.isEmpty then 0 else 2 * self.m_signalPipe.data.length + 1
  | .drain => 2 * self.m_signalPipe.data.length
  | .dispatch _ => 2 * self.m_signalPipe.data.length + 1
  | .finished => 0

/-- A monitor on which a handler counting its calls has been set, as in
`SignalMonitor mon; mon.setHandler(...)`. -/
def sampleMonitor : SignalMonitor Nat :=
  (SignalMonitor.new 65536 0).setHandler fun _ u => u + 1

/-! ### Signal catchers (`SignalMonitor::SignalCatcher<signo>`, `addSignal<signo>()`)

Signal dispositions and the static members `SignalCatcher<signo>::sigmon` are state of the
whole process.  A monitor is named by its address (`this`). -/

/-- The handler of a signal disposition. -/
inductive SigHandler where
  | SIG_DFL
  | SIG_IGN
  /-- The function `SignalCatcher<signo>::catcher`. -/
  | catcher (signo : Int)
  /-- Any other function, by address. -/
  | other (addr : Nat)
  deriving DecidableEq, Repr

/-- The fields of `struct sigaction` the code sets: `sa_handler`, and whether `sa_flags`
holds `SA_RESTART` (`sa_mask` is always emptied). -/
structure SigAction where
  sa_handler : SigHandler
  SA_RESTART : Bool
  deriving DecidableEq, Repr

/-- Process-wide state the catchers work on. -/
structure Process where
  /-- The static `SignalCatcher<signo>::sigmon` for each `signo`; `none` is `nullptr`. -/
  sigmon : Int → Option Nat
  /-- The disposition the kernel holds for each signal number. -/
  disposition : Int → SigAction
  /-- The signal numbers whose disposition `sigaction()` agrees to change: it fails with
  `EINVAL` for an invalid number and for `SIGKILL` and `SIGSTOP`. -/
  settable : Int → Bool
  /-- The member `m_catchers2` of the monitor at each address: the signal numbers whose
  `SignalCatcher<signo>::release` it holds, in the iteration order of the set. -/
  m_catchers2 : Nat → List Int

/-- System call `sigaction(signo, &sa, nullptr)`: 0 and the new disposition, or -1 and
no change. -/
def sigaction (P : Process) (signo : Int) (sa : SigAction) : Int × Process :=
  if P.settable signo then (0, { P with disposition := Function.update P.disposition signo sa })
  else (-1, P)

/-- Method `commonSetupSigAction(signo, sa)`: `sa.sa_flags |= SA_RESTART`, then
`sigaction`. -/
def commonSetupSigAction (P : Process) (signo : Int) (sa : SigAction) : Int × Process :=
  sigaction P signo { sa with SA_RESTART := true }

/-- Method `setupSignalCatcher(signo, handler)`: a zeroed `struct sigaction` with
`sa_handler = handler`. -/
def setupSignalCatcher (P : Process) (signo : Int) (handler : SigHandler) : Int × Process :=
  commonSetupSigAction P signo ⟨handler, false⟩

/-- Method `SignalCatcher<signo>::setup(mon)`: `sigmon = mon`, then the catcher is
installed; the value `setupSignalCatcher` returns is dropped. -/
def SignalCatcher.setup (signo : Int) (mon : Nat) (P : Process) : Process :=
  let P1 := { P with sigmon := Function.update P.sigmon signo (some mon) }
  (setupSignalCatcher P1 signo (.catcher signo)).2

/-- Method `SignalCatcher<signo>::reset()`: the default disposition is installed, then
`sigmon = nullptr`. -/
def SignalCatcher.reset (signo : Int) (P : Process) : Process :=
  let P1 := (setupSignalCatcher P signo .SIG_DFL).2
  { P1 with sigmon := Function.update P1.sigmon signo none }

/-- Method `SignalCatcher<signo>::release(mon)`: `if (sigmon == mon) reset();`. -/
def SignalCatcher.release (signo : Int) (mon : Nat) (P : Process) : Process :=
  if P.sigmon signo = some mon then SignalCatcher.reset signo P else P

/-- Insertion into the set `m_catchers2`. -/
def insertCatcher (signo : Int) (set : List Int) : List Int :=
  if signo ∈ set then set else signo :: set

/-- Method `addSignal<signo>()` of the monitor at address `this`. -/
def addSignal (signo : Int) (this : Nat) (P : Process) : Process :=
  let P1 := SignalCatcher.setup signo this P
  let P2 := { P1 with sigmon := Function.update P1.sigmon signo (some this) }
  { P2 with m_catchers2 :=
      Function.update P2.m_catchers2 this (insertCatcher signo (P2.m_catchers2 this)) }

/-- The loop `for (auto release : m_catchers2) release(this);` of `~SignalMonitor()`
(lines 65-68), run after the worker thread has been joined. -/
def releaseCatchers (this : Nat) (P : Process) : Process :=
  (P.m_catchers2 this).foldl (fun Q signo => SignalCatcher.release signo this Q) P

/-- An operation of some monitor of the process on the catchers. -/
inductive MonitorOp where
  /-- Call of `addSignal<signo>()` on the monitor at `mon`. -/
  | addSignal (signo : Int) (mon : Nat)
  /-- Destruction of the monitor at `mon`. -/
  | destroy (mon : Nat)
  deriving DecidableEq, Repr

/-- Effect of an operation. -/
def MonitorOp.apply : MonitorOp → Process → Process
  | .addSignal signo mon, P => Supervise.addSignal signo mon P
  | .destroy mon, P => releaseCatchers mon P

/-- Effect of a sequence of operations. -/
def applyOps (ops : List MonitorOp) (P : Process) : Process :=
  ops.foldl (fun Q op => op.apply Q) P

/-- A process at start-up: every disposition is the default, no catcher owns a signal,
no monitor holds a catcher, and `sigaction()` accepts the signals 1..64 other than
`SIGKILL` (9), `SIGSTOP` (19) and the two the threading library keeps (32, 33). -/
def bootProcess : Process where
  sigmon := fun _ => none
  disposition := fun _ => ⟨.SIG_DFL, false⟩
  settable := fun signo =>
    decide (1 ≤ signo ∧ signo ≤ 64 ∧ signo ≠ 9 ∧ signo ≠ 19 ∧ signo ≠ 32 ∧ signo ≠ 33)
  m_catchers2 := fun _ => []

/-! # Theorems -/

/-! ## Status macros -/

theorem WIFSIGNALED_iff (s : Int) : WIFSIGNALED s = true ↔ 1 ≤ s % 128 ∧ s % 128 ≤ 126 := by
  unfold WIFSIGNALED
  simp only [decide_eq_true_eq]
  split <;> omega

theorem WIFEXITED_iff (s : Int) : WIFEXITED s = true ↔ s % 128 = 0 := by
  simp [WIFEXITED, WTERMSIG]

theorem not_signaled_of_exited (s : Int) (h : WIFEXITED s = true) : WIFSIGNALED s = false := by
  rw [WIFEXITED_iff] at h
  cases hs : WIFSIGNALED s
  · rfl
  · rw [WIFSIGNALED_iff] at hs; omega

theorem exitedStatus_exited (code : Int) :
    WIFEXITED (exitedStatus code) = true ∧ WIFSIGNALED (exitedStatus code) = false ∧
      WEXITSTATUS (exitedStatus code) = code % 256 := by
  have h : WIFEXITED (exitedStatus code) = true := by
    rw [WIFEXITED_iff]; unfold exitedStatus; omega
  refine ⟨h, not_signaled_of_exited _ h, ?_⟩
  unfold WEXITSTATUS exitedStatus
  omega

theorem signaledStatus_signaled (sig : Int) (core : Bool) (h1 : 1 ≤ sig) (h2 : sig ≤ 126) :
    WIFSIGNALED (signaledStatus sig core) = true ∧ WIFEXITED (signaledStatus sig core) = false ∧
      WTERMSIG (signaledStatus sig core) = sig := by
  have h : WIFSIGNALED (signaledStatus sig core) = true := by
    rw [WIFSIGNALED_iff]; unfold signaledStatus; split <;> omega
  refine ⟨h, ?_, ?_⟩
  · cases he : WIFEXITED (signaledStatus sig core)
    · rfl
    · rw [not_signaled_of_exited _ he] at h; cases h
  · unfold WTERMSIG signaledStatus; split <;> omega

/-! ## Traces -/

theorem waitEvents_append (a b : List Call) :
    waitEvents (a ++ b) = waitEvents a ++ waitEvents b := by
  induction a with
  | nil => rfl
  | cons c cs ih => cases c <;> simp [waitEvents, ih]

theorem created_append (a b : List Call) : created (a ++ b) = created a ++ created b := by
  induction a with
  | nil => rfl
  | cons c cs ih => cases c <;> simp [created, ih]

theorem logged_append (a b : List Call) : logged (a ++ b) = logged a ++ logged b := by
  induction a with
  | nil => rfl
  | cons c cs ih => cases c <;> simp [logged, ih]

/-! ## The wait loop -/

theorem logEvent_trace {σ : Type} (self : ProcessSupervisor σ) (status : Int) (s : σ) :
    (logEvent self status s).2 = logCalls self status := by
  unfold logEvent logCalls
  cases self.m_log <;> rfl

theorem ownChildExited_status {σ : Type} (self : ProcessSupervisor σ) (S : Int) (s : σ) :
    (ownChildExited self S s).status = if WIFEXITED S then WEXITSTATUS S else 0 := by
  simp only [ownChildExited]
  split
  · split <;> rfl
  · rfl

theorem ownChildExited_restart {σ : Type} (self : ProcessSupervisor σ) (S : Int) (s : σ) :
    (ownChildExited self S s).restart = (restartDecision self S s).1 := by
  simp only [ownChildExited]
  split
  · split <;> rfl
  · rfl

/-- Shape of every finished wait loop: a run of events of other children, each logged
and skipped, then the event of `pid`, logged and decided on. -/
theorem waitLoop_shape {σ : Type} (self : ProcessSupervisor σ) (sys : Sys σ) (pid : Int)
    (fuel : Nat) (s : σ) (e : CycleEnd σ) (h : waitLoop self sys pid fuel s = some e) :
    ∃ (strays : List (Int × Int)) (S : Int) (s' : σ),
      (∀ ev ∈ strays, ev.1 ≠ pid) ∧
      e.trace = strayCalls self strays
        ++ (Call.wait pid S :: (logCalls self S ++ (ownChildExited self S s').trace)) ∧
      e.restart = (ownChildExited self S s').restart ∧
      e.status = (ownChildExited self S s').status ∧
      e.state = (ownChildExited self S s').state := by
  induction fuel generalizing s e with
  | zero => simp [waitLoop] at h
  | succ n ih =>
    simp only [waitLoop] at h
    split at h
    · rename_i hpid
      simp only [Option.some.injEq] at h
      subst h
      refine ⟨[], (sys.wait s).1.2, (logEvent self (sys.wait s).1.2 (sys.wait s).2).1, ?_, ?_, rfl, rfl, rfl⟩
      · simp
      · simp [logEvent_trace, hpid, strayCalls]
    · rename_i hpid
      simp only [Option.map_eq_some'] at h
      obtain ⟨e', he', rfl⟩ := h
      obtain ⟨strays, S, s', hs, ht, hr, hst, hstate⟩ := ih _ _ he'
      refine ⟨((sys.wait s).1.1, (sys.wait s).1.2) :: strays, S, s', ?_, ?_, hr, hst, hstate⟩
      · intro ev hev
        simp only [List.mem_cons] at hev
        rcases hev with rfl | hev
        · exact hpid
        · exact hs ev hev
      · simp [logEvent_trace, ht, strayCalls]

theorem waitEvents_logCalls {σ : Type} (self : ProcessSupervisor σ) (S : Int) :
    waitEvents (logCalls self S) = [] := by
  unfold logCalls; cases self.m_log <;> rfl

theorem created_logCalls {σ : Type} (self : ProcessSupervisor σ) (S : Int) :
    created (logCalls self S) = [] := by
  unfold logCalls; cases self.m_log <;> rfl

theorem logged_logCalls {σ : Type} (self : ProcessSupervisor σ) (S : Int) :
    logged (logCalls self S) = if self.m_log.isSome then [logLine S] else [] := by
  unfold logCalls; cases self.m_log <;> rfl

theorem restartDecision_trace {σ : Type} (self : ProcessSupervisor σ) (S : Int) (s : σ) :
    waitEvents (restartDecision self S s).2.2 = [] ∧ created (restartDecision self S s).2.2 = [] ∧
      logged (restartDecision self S s).2.2 = [] := by
  unfold restartDecision
  cases self.m_restartCheck <;> simp [waitEvents, created, logged]

theorem ownChildExited_trace {σ : Type} (self : ProcessSupervisor σ) (S : Int) (s : σ) :
    waitEvents (ownChildExited self S s).trace = [] ∧
      created (ownChildExited self S s).trace = [] ∧
      logged (ownChildExited self S s).trace = [] := by
  obtain ⟨h1, h2, h3⟩ := restartDecision_trace self S s
  simp only [ownChildExited]
  split
  · split
    · simp [waitEvents_append, created_append, logged_append, h1, h2, h3, waitEvents, created,
        logged]
    · exact ⟨h1, h2, h3⟩
  · exact ⟨h1, h2, h3⟩

theorem waitEvents_strays {σ : Type} (self : ProcessSupervisor σ) (strays : List (Int × Int)) :
    waitEvents (strayCalls self strays) = strays := by
  induction strays with
  | nil => rfl
  | cons ev evs ih =>
    show (ev.1, ev.2) :: waitEvents (logCalls self ev.2 ++ strayCalls self evs) = ev :: evs
    rw [waitEvents_append, waitEvents_logCalls, ih]; rfl

theorem created_strays {σ : Type} (self : ProcessSupervisor σ) (strays : List (Int × Int)) :
    created (strayCalls self strays) = [] := by
  induction strays with
  | nil => rfl
  | cons ev evs ih =>
    show created (logCalls self ev.2 ++ strayCalls self evs) = []
    rw [created_append, created_logCalls, ih]; rfl

theorem logged_strays {σ : Type} (self : ProcessSupervisor σ) (strays : List (Int × Int)) :
    logged (strayCalls self strays) =
      if self.m_log.isSome then strays.map (fun ev => logLine ev.2) else [] := by
  induction strays with
  | nil => simp [strayCalls, logged]
  | cons ev evs ih =>
    show logged (logCalls self ev.2 ++ strayCalls self evs) = _
    rw [logged_append, logged_logCalls, ih]
    cases self.m_log <;> simp

/-- Summary of a finished wait loop. -/
theorem waitLoop_summary {σ : Type} (self : ProcessSupervisor σ) (sys : Sys σ) (pid : Int)
    (fuel : Nat) (s : σ) (e : CycleEnd σ) (h : waitLoop self sys pid fuel s = some e) :
    ∃ (strays : List (Int × Int)) (S : Int) (s' : σ),
      (∀ ev ∈ strays, ev.1 ≠ pid) ∧
      waitEvents e.trace = strays ++ [(pid, S)] ∧
      logged e.trace =
        (if self.m_log.isSome then (strays ++ [(pid, S)]).map (fun ev => logLine ev.2)
         else []) ∧
      e.trace = strayCalls self strays
        ++ (Call.wait pid S :: (logCalls self S ++ (ownChildExited self S s').trace)) ∧
      e.restart = (restartDecision self S s').1 ∧
      e.status = (if WIFEXITED S then WEXITSTATUS S else 0) := by
  obtain ⟨strays, S, s', hs, ht, hr, hst, -⟩ := waitLoop_shape self sys pid fuel s e h
  obtain ⟨h1, -, h3⟩ := ownChildExited_trace self S s'
  refine ⟨strays, S, s', hs, ?_, ?_, ht, ?_, ?_⟩
  · rw [ht, waitEvents_append, waitEvents_strays]
    show strays ++ (pid, S) :: waitEvents (logCalls self S ++ _) = _
    rw [waitEvents_append, waitEvents_logCalls, h1]; rfl
  · rw [ht, logged_append, logged_strays]
    show _ ++ logged (logCalls self S ++ _) = _
    rw [logged_append, logged_logCalls, h3]
    cases self.m_log <;> simp
  · rw [hr, ownChildExited_restart]
  · rw [hst, ownChildExited_status]

/-! ## Creation -/

theorem safe_fork_trace {σ : Type} (sys : Sys σ) (s : σ) :
    waitEvents (safe_fork sys s).trace = [] ∧
      ∀ pid, (safe_fork sys s).result = .ok pid → created (safe_fork sys s).trace = [pid] := by
  unfold safe_fork
  simp only
  split
  · exact ⟨rfl, fun pid h => by cases h⟩
  · refine ⟨rfl, fun pid h => ?_⟩
    simp only [Except.ok.injEq] at h
    subst h; rfl

theorem defaultForkRoutine_trace {σ : Type} (self : ProcessSupervisor σ) (sys : Sys σ) (s : σ) :
    waitEvents (defaultForkRoutine self sys s).trace = [] ∧
      ∀ pid, (defaultForkRoutine self sys s).result = .ok pid →
        created (defaultForkRoutine self sys s).trace = [pid] := by
  obtain ⟨hw, hc⟩ := safe_fork_trace sys s
  unfold defaultForkRoutine
  simp only
  split
  · exact ⟨hw, fun pid h => by cases h⟩
  · rename_i pid hpid
    split
    · exact ⟨hw, fun pid h => by cases h⟩
    · split
      · split
        · exact ⟨by simp [waitEvents_append, hw, waitEvents], fun pid h => by cases h⟩
        · exact ⟨by simp [waitEvents_append, hw, waitEvents], fun pid h => by cases h⟩
      · refine ⟨hw, fun p h => ?_⟩
        simp only [Except.ok.injEq] at h
        subst h
        exact hc _ hpid

theorem spawn_trace {σ : Type} (self : ProcessSupervisor σ) (sys : Sys σ) (s : σ) :
    waitEvents (spawn self sys s).trace = [] ∧
      ∀ pid, (spawn self sys s).result = .ok pid → created (spawn self sys s).trace = [pid] := by
  unfold spawn
  cases hp : self.m_prefork with
  | none =>
    cases hf : self.m_fork with
    | none =>
      obtain ⟨hw, hc⟩ := defaultForkRoutine_trace self sys s
      simp only [List.nil_append]
      split
      · exact ⟨hw, fun pid h => by cases h⟩
      · rename_i pid hpid
        split
        · refine ⟨by simp [waitEvents_append, hw, waitEvents], fun p h => ?_⟩
          simp only [Except.ok.injEq] at h
          subst h
          simp [created_append, hc _ hpid, created]
        · refine ⟨hw, fun p h => ?_⟩
          simp only [Except.ok.injEq] at h
          subst h
          exact hc _ hpid
    | some f =>
      simp only [List.nil_append]
      cases self.m_postfork with
      | none => exact ⟨rfl, fun p h => by simp only [Except.ok.injEq] at h; subst h; rfl⟩
      | some g => exact ⟨rfl, fun p h => by simp only [Except.ok.injEq] at h; subst h; rfl⟩
  | some pre =>
    cases hf : self.m_fork with
    | none =>
      obtain ⟨hw, hc⟩ := defaultForkRoutine_trace self sys (pre s)
      simp only
      split
      · exact ⟨by simp [waitEvents, hw], fun pid h => by cases h⟩
      · rename_i pid hpid
        split
        · refine ⟨by simp [waitEvents_append, hw, waitEvents], fun p h => ?_⟩
          simp only [Except.ok.injEq] at h
          subst h
          simp [created_append, hc _ hpid, created]
        · refine ⟨by simp [waitEvents, hw], fun p h => ?_⟩
          simp only [Except.ok.injEq] at h
          subst h
          simp [created, hc _ hpid]
    | some f =>
      simp only
      cases self.m_postfork with
      | none => exact ⟨rfl, fun p h => by simp only [Except.ok.injEq] at h; subst h; rfl⟩
      | some g => exact ⟨rfl, fun p h => by simp only [Except.ok.injEq] at h; subst h; rfl⟩

/-! ## Replaying what the code did

Every piece of the supervisor leaves the world that its own trace leaves when replayed:
the calls of the trace are made, on the world, in that order, and nothing else acts on
the world. -/

theorem replay_append {σ : Type} (self : ProcessSupervisor σ) (sys : Sys σ)
    (a b : List Call) (s : σ) :
    replay self sys (a ++ b) s = (replay self sys a s).bind (replay self sys b) := by
  induction a generalizing s with
  | nil => rfl
  | cons c cs ih =>
    simp only [List.cons_append, replay]
    cases Call.effect self sys c s with
    | none => rfl
    | some s' => simpa using ih s'

theorem replay_append_of {σ : Type} (self : ProcessSupervisor σ) (sys : Sys σ)
    (a b : List Call) (s s' s'' : σ) (ha : replay self sys a s = some s')
    (hb : replay self sys b s' = some s'') : replay self sys (a ++ b) s = some s'' := by
  rw [replay_append, ha]
  exact hb

theorem replay_safe_fork {σ : Type} (self : ProcessSupervisor σ) (sys : Sys σ) (s : σ) :
    replay self sys (safe_fork sys s).trace s = some (safe_fork sys s).state := by
  unfold safe_fork
  simp only
  split
  · rfl
  · simp [replay, Call.effect]

theorem replay_defaultForkRoutine {σ : Type} (self : ProcessSupervisor σ) (sys : Sys σ)
    (s : σ) :
    replay self sys (defaultForkRoutine self sys s).trace s
      = some (defaultForkRoutine self sys s).state := by
  have hf := replay_safe_fork self sys s
  unfold defaultForkRoutine
  simp only
  split
  · exact hf
  · split
    · exact hf
    · split
      · split
        · exact replay_append_of self sys _ _ _ _ _ hf (by simp [replay, Call.effect])
        · rename_i child hc
          exact replay_append_of self sys _ _ _ _ _ hf (by simp [replay, Call.effect, hc])
      · exact hf

theorem replay_spawn {σ : Type} (self : ProcessSupervisor σ) (sys : Sys σ) (s : σ) :
    replay self sys (spawn self sys s).trace s = some (spawn self sys s).state := by
  unfold spawn
  cases hp : self.m_prefork with
  | none =>
    cases hf : self.m_fork with
    | none =>
      have hd := replay_defaultForkRoutine self sys s
      simp only [List.nil_append]
      split
      · exact hd
      · split
        · rename_i post hpost
          exact replay_append_of self sys _ _ _ _ _ hd (by simp [replay, Call.effect, hpost])
        · exact hd
    | some f =>
      simp only [List.nil_append]
      cases hpost : self.m_postfork with
      | none => simp [replay, Call.effect, hf]
      | some g => simp [replay, Call.effect, hf, hpost]
  | some pre =>
    have h0 : replay self sys [Call.prefork] s = some (pre s) := by
      simp [replay, Call.effect, hp]
    cases hf : self.m_fork with
    | none =>
      have hd := replay_defaultForkRoutine self sys (pre s)
      simp only
      split
      · exact replay_append_of self sys _ _ _ _ _ h0 hd
      · split
        · rename_i post hpost
          exact replay_append_of self sys _ _ _ _ _
            (replay_append_of self sys _ _ _ _ _ h0 hd) (by simp [replay, Call.effect, hpost])
        · exact replay_append_of self sys _ _ _ _ _ h0 hd
    | some f =>
      simp only
      cases hpost : self.m_postfork with
      | none => simp [replay, Call.effect, hf, hp]
      | some g => simp [replay, Call.effect, hf, hp, hpost]

theorem replay_logEvent {σ : Type} (self : ProcessSupervisor σ) (sys : Sys σ) (status : Int)
    (s : σ) :
    replay self sys (logEvent self status s).2 s = some (logEvent self status s).1 := by
  unfold logEvent
  cases h : self.m_log with
  | none => rfl
  | some log => simp [replay, Call.effect, h]

theorem replay_restartDecision {σ : Type} (self : ProcessSupervisor σ) (sys : Sys σ)
    (status : Int) (s : σ) :
    replay self sys (restartDecision self status s).2.2 s
      = some (restartDecision self status s).2.1 := by
  unfold restartDecision
  cases h : self.m_restartCheck with
  | none => rfl
  | some check => simp [replay, Call.effect, h]

theorem replay_ownChildExited {σ : Type} (self : ProcessSupervisor σ) (sys : Sys σ)
    (status : Int) (s : σ) :
    replay self sys (ownChildExited self status s).trace s
      = some (ownChildExited self status s).state := by
  have hd := replay_restartDecision self sys status s
  simp only [ownChildExited]
  split
  · split
    · rename_i pre hpre
      exact replay_append_of self sys _ _ _ _ _ hd (by simp [replay, Call.effect, hpre])
    · exact hd
  · exact hd

theorem replay_wait {σ : Type} (self : ProcessSupervisor σ) (sys : Sys σ) (s : σ) :
    replay self sys [Call.wait (sys.wait s).1.1 (sys.wait s).1.2] s = some (sys.wait s).2 := by
  simp [replay, Call.effect]

theorem replay_waitLoop {σ : Type} (self : ProcessSupervisor σ) (sys : Sys σ) (pid : Int)
    (fuel : Nat) (s : σ) (e : CycleEnd σ) (h : waitLoop self sys pid fuel s = some e) :
    replay self sys e.trace s = some e.state := by
  induction fuel generalizing s e with
  | zero => simp [waitLoop] at h
  | succ n ih =>
    simp only [waitLoop] at h
    have hw := replay_wait self sys s
    have hl := replay_logEvent self sys (sys.wait s).1.2 (sys.wait s).2
    split at h
    · simp only [Option.some.injEq] at h
      subst h
      have ho := replay_ownChildExited self sys (sys.wait s).1.2
        (logEvent self (sys.wait s).1.2 (sys.wait s).2).1
      exact replay_append_of self sys _ _ _ _ _
        (replay_append_of self sys [_] _ _ _ _ hw hl) ho
    · simp only [Option.map_eq_some'] at h
      obtain ⟨e', he', rfl⟩ := h
      exact replay_append_of self sys _ _ _ _ _
        (replay_append_of self sys [_] _ _ _ _ hw hl) (ih _ _ he')

/-- The world `start()` leaves is the world its trace leaves: every callback and system
call of the trace was applied to the world, in the order of the trace, and returned what
the trace records. -/
theorem replay_start {σ : Type} (self : ProcessSupervisor σ) (sys : Sys σ)
    (waits cycles : Nat) (s : σ) (r : Ran σ Int)
    (h : start self sys waits cycles s = some r) :
    replay self sys r.trace s = some r.state := by
  induction cycles generalizing s r with
  | zero => simp [start] at h
  | succ n ih =>
    simp only [start] at h
    have hs := replay_spawn self sys s
    split at h
    · simp only [Option.some.injEq] at h
      subst h
      exact hs
    · split at h
      · cases h
      · rename_i e he
        have hl := replay_waitLoop self sys _ waits _ e he
        split at h
        · simp only [Option.map_eq_some'] at h
          obtain ⟨r', hr', rfl⟩ := h
          exact replay_append_of self sys _ _ _ _ _
            (replay_append_of self sys _ _ _ _ _ hs hl) (ih _ _ hr')
        · simp only [Option.some.injEq] at h
          subst h
          exact replay_append_of self sys _ _ _ _ _ hs hl

theorem ownChildExited_calls {σ : Type} (self : ProcessSupervisor σ) (S : Int) (s : σ) :
    (ownChildExited self S s).trace = decisionCalls self S (ownChildExited self S s).restart := by
  simp only [ownChildExited, restartDecision, decisionCalls]
  cases hc : self.m_restartCheck with
  | none =>
    simp only
    split
    · rename_i hr
      split <;> simp [hr]
    · rename_i hr
      simp [hr]
  | some check =>
    simp only
    split
    · rename_i hr
      split <;> simp [hr]
    · rename_i hr
      simp [hr]

/-! ## The wait loop, event by event -/

theorem logEvent_state {σ : Type} (self : ProcessSupervisor σ) (status : Int) (s : σ) :
    (logEvent self status s).1
      = match self.m_log with
        | some log => log (logLine status) s
        | none => s := by
  unfold logEvent
  cases self.m_log <;> rfl

theorem replay_event {σ : Type} (self : ProcessSupervisor σ) (sys : Sys σ) (s : σ)
    (rest : List Call) :
    replay self sys
        (Call.wait (sys.wait s).1.1 (sys.wait s).1.2
          :: (logCalls self (sys.wait s).1.2 ++ rest)) s
      = replay self sys rest (logEvent self (sys.wait s).1.2 (sys.wait s).2).1 := by
  show replay self sys ([Call.wait (sys.wait s).1.1 (sys.wait s).1.2]
      ++ (logCalls self (sys.wait s).1.2 ++ rest)) s = _
  rw [replay_append, replay_wait, Option.some_bind, replay_append, ← logEvent_trace self _
    (sys.wait s).2, replay_logEvent, Option.some_bind]

theorem ownChildExited_decision {σ : Type} (self : ProcessSupervisor σ) (S : Int) (s : σ) :
    (ownChildExited self S s).restart
      = match self.m_restartCheck with
        | some check => (check S s).1
        | none => WIFSIGNALED S := by
  rw [ownChildExited_restart]
  unfold restartDecision
  cases self.m_restartCheck <;> rfl

/-- Every finished wait loop, with the world in which the decision was taken. -/
theorem waitLoop_replayed {σ : Type} (self : ProcessSupervisor σ) (sys : Sys σ) (pid : Int)
    (fuel : Nat) (s : σ) (e : CycleEnd σ) (h : waitLoop self sys pid fuel s = some e) :
    ∃ (strays : List (Int × Int)) (S : Int) (s' : σ),
      (∀ ev ∈ strays, ev.1 ≠ pid) ∧
      replay self sys (strayCalls self strays ++ (Call.wait pid S :: logCalls self S)) s
        = some s' ∧
      e.trace = strayCalls self strays
        ++ (Call.wait pid S :: (logCalls self S ++ (ownChildExited self S s').trace)) ∧
      e.restart = (ownChildExited self S s').restart ∧
      e.status = (ownChildExited self S s').status ∧
      e.state = (ownChildExited self S s').state := by
  induction fuel generalizing s e with
  | zero => simp [waitLoop] at h
  | succ n ih =>
    simp only [waitLoop] at h
    split at h
    · rename_i hpid
      simp only [Option.some.injEq] at h
      subst h
      refine ⟨[], (sys.wait s).1.2, (logEvent self (sys.wait s).1.2 (sys.wait s).2).1,
        ?_, ?_, ?_, rfl, rfl, rfl⟩
      · simp
      · have := replay_event self sys s []
        rw [List.append_nil, hpid] at this
        simpa [strayCalls, replay] using this
      · simp [logEvent_trace, hpid, strayCalls]
    · rename_i hpid
      simp only [Option.map_eq_some'] at h
      obtain ⟨e', he', rfl⟩ := h
      obtain ⟨strays, S, s', hs, hrep, ht, hr, hst, hstate⟩ := ih _ _ he'
      refine ⟨((sys.wait s).1.1, (sys.wait s).1.2) :: strays, S, s', ?_, ?_, ?_, hr, hst,
        hstate⟩
      · intro ev hev
        simp only [List.mem_cons] at hev
        rcases hev with rfl | hev
        · exact hpid
        · exact hs ev hev
      · show replay self sys
            (Call.wait (sys.wait s).1.1 (sys.wait s).1.2
              :: (logCalls self (sys.wait s).1.2 ++ strayCalls self strays)
              ++ (Call.wait pid S :: logCalls self S)) s = some s'
        rw [List.cons_append, List.append_assoc, replay_event]
        exact hrep
      · simp [logEvent_trace, ht, strayCalls]

/-- C4: for the wait loop of `start()` supervising `pid`, in any world.
(1) In every finished loop the events returned by `wait` are a run of events of other
children followed by exactly one event of `pid`, the last one.  For each event, in
order, `wait` was called and then the log callback, when set, was applied to the world
with the line of that event: the world `s'` in which the decision is taken is the one
these calls leave.  The decision is the verdict of the restart-check callback applied to
the status `S` of the event of `pid` in `s'`, or `WIFSIGNALED(S)` when no callback is set;
the loop leaves the world that the restart-check callback and, on a restart, the
pre-restart hook leave from `s'`; `status` is left holding the exit code, or 0.
(2) An event whose id is not `pid` makes the loop apply the log callback, when set, to
the world `wait` left and go on waiting in the world so obtained, with the same outcome.
(3) An event whose id is `pid` ends the loop at once: the log callback, when set, is
applied to the world `wait` left, the decision is taken in the world so obtained, and the
loop leaves the world that the restart-check callback and, on a restart, the pre-restart
hook leave. -/
theorem wait_loop_events {σ : Type} (self : ProcessSupervisor σ) (sys : Sys σ) (pid : Int) :
    (∀ (fuel : Nat) (s : σ) (e : CycleEnd σ), waitLoop self sys pid fuel s = some e →
      ∃ (strays : List (Int × Int)) (S : Int) (s' : σ),
        (∀ ev ∈ strays, ev.1 ≠ pid) ∧
        waitEvents e.trace = strays ++ [(pid, S)] ∧
        logged e.trace =
          (if self.m_log.isSome then (strays ++ [(pid, S)]).map (fun ev => logLine ev.2)
           else []) ∧
        e.trace = strayCalls self strays
          ++ (Call.wait pid S :: (logCalls self S ++ decisionCalls self S e.restart)) ∧
        replay self sys (strayCalls self strays ++ (Call.wait pid S :: logCalls self S)) s
          = some s' ∧
        replay self sys (decisionCalls self S e.restart) s' = some e.state ∧
        replay self sys e.trace s = some e.state ∧
        e.restart =
          (match self.m_restartCheck with
            | some check => (check S s').1
            | none => WIFSIGNALED S) ∧
        e.status = (if WIFEXITED S then WEXITSTATUS S else 0)) ∧
    (∀ (fuel : Nat) (s : σ), (sys.wait s).1.1 ≠ pid →
      waitLoop self sys pid (fuel + 1) s
        = (waitLoop self sys pid fuel
            (match self.m_log with
              | some log => log (logLine (sys.wait s).1.2) (sys.wait s).2
              | none => (sys.wait s).2)).map fun e =>
          ⟨e.restart, e.status, e.state,
            Call.wait (sys.wait s).1.1 (sys.wait s).1.2
              :: (logCalls self (sys.wait s).1.2 ++ e.trace)⟩) ∧
    (∀ (fuel : Nat) (s : σ), (sys.wait s).1.1 = pid →
      ∃ e, waitLoop self sys pid (fuel + 1) s = some e ∧
        e.trace = Call.wait pid (sys.wait s).1.2
          :: (logCalls self (sys.wait s).1.2
            ++ decisionCalls self (sys.wait s).1.2 e.restart) ∧
        replay self sys e.trace s = some e.state ∧
        e.restart =
          (match self.m_restartCheck with
            | some check =>
              (check (sys.wait s).1.2
                (match self.m_log with
                  | some log => log (logLine (sys.wait s).1.2) (sys.wait s).2
                  | none => (sys.wait s).2)).1
            | none => WIFSIGNALED (sys.wait s).1.2) ∧
        e.status
          = (if WIFEXITED (sys.wait s).1.2 then WEXITSTATUS (sys.wait s).1.2 else 0)) := by
  refine ⟨?_, ?_, ?_⟩
  · intro fuel s e h
    obtain ⟨strays, S, s', hs, hrep, ht, hr, hst, hstate⟩ :=
      waitLoop_replayed self sys pid fuel s e h
    obtain ⟨h1, -, h3⟩ := ownChildExited_trace self S s'
    have hcalls := ownChildExited_calls self S s'
    rw [← hr] at hcalls
    refine ⟨strays, S, s', hs, ?_, ?_, ?_, hrep, ?_, replay_waitLoop self sys pid fuel s e h,
      ?_, ?_⟩
    · rw [ht, waitEvents_append, waitEvents_strays]
      show strays ++ (pid, S) :: waitEvents (logCalls self S ++ _) = _
      rw [waitEvents_append, waitEvents_logCalls, h1]; rfl
    · rw [ht, logged_append, logged_strays]
      show _ ++ logged (logCalls self S ++ _) = _
      rw [logged_append, logged_logCalls, h3]
      cases self.m_log <;> simp
    · rw [ht, hcalls]
    · rw [← hcalls, hstate]
      exact replay_ownChildExited self sys S s'
    · rw [hr, ownChildExited_decision]
    · rw [hst, ownChildExited_status]
  · intro fuel s hne
    simp only [waitLoop, if_neg hne, logEvent_trace, List.cons_append, logEvent_state]
  · intro fuel s heq
    have hw : waitLoop self sys pid (fuel + 1) s
        = some ⟨(ownChildExited self (sys.wait s).1.2
              (logEvent self (sys.wait s).1.2 (sys.wait s).2).1).restart,
            (ownChildExited self (sys.wait s).1.2
              (logEvent self (sys.wait s).1.2 (sys.wait s).2).1).status,
            (ownChildExited self (sys.wait s).1.2
              (logEvent self (sys.wait s).1.2 (sys.wait s).2).1).state,
            Call.wait pid (sys.wait s).1.2
              :: (logCalls self (sys.wait s).1.2
                ++ (ownChildExited self (sys.wait s).1.2
                  (logEvent self (sys.wait s).1.2 (sys.wait s).2).1).trace)⟩ := by
      simp only [waitLoop, logEvent_trace, List.cons_append, heq, if_true]
    refine ⟨_, hw, ?_, replay_waitLoop self sys pid (fuel + 1) s _ hw, ?_, ?_⟩
    · show Call.wait pid _ :: (_ ++ (ownChildExited self _ _).trace) = _
      rw [ownChildExited_calls]
    · show (ownChildExited self _ _).restart = _
      rw [ownChildExited_decision, logEvent_state]
    · exact ownChildExited_status self _ _

theorem wait_loop_events_witness :
    ∃ e, waitLoop sampleScript.supervisor sampleScript.sys 100 2 ⟨1, 0, 0, 1⟩ = some e ∧
      e.state = ⟨1, 2, 0, 1001⟩ ∧
      ∃ (strays : List (Int × Int)) (S : Int) (s' : Scripted Nat),
        (∀ ev ∈ strays, ev.1 ≠ 100) ∧
        waitEvents e.trace = strays ++ [((100 : Int), S)] ∧
        logged e.trace =
          (if sampleScript.supervisor.m_log.isSome
            then (strays ++ [((100 : Int), S)]).map (fun ev => logLine ev.2) else []) ∧
        e.trace = strayCalls sampleScript.supervisor strays
          ++ (Call.wait 100 S ::
            (logCalls sampleScript.supervisor S
              ++ decisionCalls sampleScript.supervisor S e.restart)) ∧
        replay sampleScript.supervisor sampleScript.sys
            (strayCalls sampleScript.supervisor strays
              ++ (Call.wait 100 S :: logCalls sampleScript.supervisor S)) ⟨1, 0, 0, 1⟩
          = some s' ∧
        replay sampleScript.supervisor sampleScript.sys
            (decisionCalls sampleScript.supervisor S e.restart) s' = some e.state ∧
        replay sampleScript.supervisor sampleScript.sys e.trace ⟨1, 0, 0, 1⟩
          = some e.state ∧
        e.restart =
          (match sampleScript.supervisor.m_restartCheck with
            | some check => (check S s').1
            | none => WIFSIGNALED S) ∧
        e.status = (if WIFEXITED S then WEXITSTATUS S else 0) :=
  ⟨_, rfl, rfl,
    (wait_loop_events sampleScript.supervisor sampleScript.sys 100).1 2 ⟨1, 0, 0, 1⟩ _ rfl⟩

/-! ## The supervision loop -/

/-- C1: whenever `start()` returns a value `v`, the last `wait` of the run reported the
identifier `pid` produced by the last creation step, with some status `S`; `v` is
`WEXITSTATUS(S)` when `S` is a normal exit and 0 otherwise, in particular 0 when `S` is a
termination by signal; and the restart decision taken on `S` was negative. -/
theorem start_returns_exit_code {σ : Type} (self : ProcessSupervisor σ) (sys : Sys σ)
    (waits cycles : Nat) (s : σ) (r : Ran σ Int) (v : Int)
    (h : start self sys waits cycles s = some r) (hv : r.result = .ok v) :
    ∃ (pid S : Int) (s' : σ),
      lastCreated r.trace = some pid ∧
      lastWait r.trace = some (pid, S) ∧
      v = (if WIFEXITED S then WEXITSTATUS S else 0) ∧
      (WIFEXITED S = true → v = WEXITSTATUS S) ∧
      (WIFSIGNALED S = true → v = 0) ∧
      (restartDecision self S s').1 = false := by
  induction cycles generalizing s r with
  | zero => simp [start] at h
  | succ n ih =>
    simp only [start] at h
    split at h
    · simp only [Option.some.injEq] at h
      subst h
      simp at hv
    · rename_i pid hpid
      split at h
      · cases h
      · rename_i e he
        split at h
        · simp only [Option.map_eq_some'] at h
          obtain ⟨r', hr', rfl⟩ := h
          obtain ⟨p, S, s', h1, h2, h3⟩ := ih _ _ hr' hv
          refine ⟨p, S, s', ?_, ?_, h3⟩
          · unfold lastCreated at h1 ⊢
            rw [created_append, List.getLast?_append, h1]; rfl
          · unfold lastWait at h2 ⊢
            rw [waitEvents_append, List.getLast?_append, h2]; rfl
        · rename_i hres
          simp only [Option.some.injEq] at h
          subst h
          simp only [Except.ok.injEq] at hv
          obtain ⟨strays, S, s', -, hw, -, ht, hr, hst⟩ :=
            waitLoop_summary self sys pid waits _ e he
          obtain ⟨hsw, hsc⟩ := spawn_trace self sys s
          obtain ⟨-, hc, -⟩ := ownChildExited_trace self S s'
          have hv' : v = if WIFEXITED S then WEXITSTATUS S else 0 := by rw [← hv, hst]
          refine ⟨pid, S, s', ?_, ?_, hv', ?_, ?_, ?_⟩
          · unfold lastCreated
            rw [created_append, hsc pid hpid, ht, created_append, created_strays]
            show ([pid] ++ ([] ++ created (logCalls self S ++ _))).getLast? = _
            rw [created_append, created_logCalls, hc]; rfl
          · unfold lastWait
            rw [waitEvents_append, hsw, hw]; simp
          · intro hx; rw [hv', if_pos hx]
          · intro hx
            cases hex : WIFEXITED S
            · rw [hv', hex]; rfl
            · rw [not_signaled_of_exited S hex] at hx; cases hx
          · rw [← hr]; simpa using hres

/-- C2: when the next `wait` reports the supervised child `pid` with status `S`, the wait
loop ends there and its restart decision is: without a restart-check callback,
`WIFSIGNALED(S)`, hence false for every normal exit; with a callback `check`, the value
`check` returns for the raw status `S`, whatever `WIFSIGNALED(S)` is. -/
theorem restart_decision_policy {σ : Type} (self : ProcessSupervisor σ) (sys : Sys σ)
    (pid S : Int) (fuel : Nat) (s : σ) (hw : (sys.wait s).1 = (pid, S)) :
    ∃ e, waitLoop self sys pid (fuel + 1) s = some e ∧
      (self.m_restartCheck = none →
        e.restart = WIFSIGNALED S ∧ (WIFEXITED S = true → e.restart = false)) ∧
      (∀ check, self.m_restartCheck = some check →
        e.restart = (check S (logEvent self S (sys.wait s).2).1).1) := by
  have h1 : (sys.wait s).1.1 = pid := by rw [hw]
  have h2 : (sys.wait s).1.2 = S := by rw [hw]
  refine ⟨_, by simp only [waitLoop, h1, h2, if_true]; rfl, ?_, ?_⟩
  · intro hnone
    have : (ownChildExited self S (logEvent self S (sys.wait s).2).1).restart
        = WIFSIGNALED S := by
      rw [ownChildExited_restart]; simp [restartDecision, hnone]
    refine ⟨this, fun hex => ?_⟩
    show (ownChildExited self S (logEvent self S (sys.wait s).2).1).restart = false
    rw [this]; exact not_signaled_of_exited S hex
  · intro check hcheck
    show (ownChildExited self S (logEvent self S (sys.wait s).2).1).restart = _
    rw [ownChildExited_restart]; simp [restartDecision, hcheck]

/-! ## Scripted runs -/

theorem count_logCalls {σ : Type} (self : ProcessSupervisor σ) (S : Int) :
    (logCalls self S).count .prefork = 0 ∧ (logCalls self S).count .prerestart = 0 := by
  unfold logCalls; cases self.m_log <;> simp

theorem count_restartDecision {σ : Type} (self : ProcessSupervisor σ) (S : Int) (s : σ) :
    (restartDecision self S s).2.2.count .prefork = 0 ∧
      (restartDecision self S s).2.2.count .prerestart = 0 := by
  unfold restartDecision; cases self.m_restartCheck <;> simp

theorem count_ownChildExited {σ : Type} (self : ProcessSupervisor σ) (S : Int) (s : σ) :
    (ownChildExited self S s).trace.count .prefork = 0 ∧
      (ownChildExited self S s).trace.count .prerestart =
        if (restartDecision self S s).1 && self.m_prerestart.isSome then 1 else 0 := by
  obtain ⟨h1, h2⟩ := count_restartDecision self S s
  simp only [ownChildExited]
  cases hd : (restartDecision self S s).1
  · simp [h1, h2]
  · cases hp : self.m_prerestart <;> simp [h1, h2]

/-- State of a scripted run after the decision on the own child's status. -/
theorem scripted_ownChildExited {υ : Type} (sc : Script υ) (S : Int) (s : Scripted υ) :
    (ownChildExited sc.supervisor S s).restart = sc.policy s.checks S ∧
      (ownChildExited sc.supervisor S s).state.forks = s.forks ∧
      (ownChildExited sc.supervisor S s).state.waits = s.waits ∧
      (ownChildExited sc.supervisor S s).state.checks =
        (if sc.verdictOf.isSome then s.checks + 1 else s.checks) ∧
      (ownChildExited sc.supervisor S s).state.user =
        (if sc.policy s.checks S then (sc.prerestart.getD id) s.user else s.user) := by
  cases hv : sc.verdictOf with
  | none =>
    simp only [ownChildExited, restartDecision, Script.supervisor, Script.policy, hv]
    cases hp : sc.prerestart <;> cases hs : WIFSIGNALED S <;> simp
  | some v =>
    simp only [ownChildExited, restartDecision, Script.supervisor, Script.policy, hv]
    cases hp : sc.prerestart <;> cases hs : v s.checks S <;> simp [hs]

/-- In a scripted run whose `wait` number `m` is the first, from the current one on,
that reports `pid`, the wait loop ends at that event. -/
theorem scripted_waitLoop {υ : Type} (sc : Script υ) (pid : Int) (d : Nat) :
    ∀ (s : Scripted υ) (m fuel : Nat), m = s.waits + d → d < fuel →
      (∀ i, s.waits ≤ i → i < m → (sc.eventOf i).1 ≠ pid) →
      (sc.eventOf m).1 = pid →
      ∃ e, waitLoop sc.supervisor sc.sys pid fuel s = some e ∧
        e.restart = sc.policy s.checks (sc.eventOf m).2 ∧
        e.status = (if WIFEXITED (sc.eventOf m).2 then WEXITSTATUS (sc.eventOf m).2 else 0) ∧
        e.state.forks = s.forks ∧ e.state.waits = m + 1 ∧
        e.state.checks = (if sc.verdictOf.isSome then s.checks + 1 else s.checks) ∧
        e.trace.count .prefork = 0 ∧
        e.trace.count .prerestart =
          (if sc.policy s.checks (sc.eventOf m).2 && sc.prerestart.isSome then 1 else 0) ∧
        created e.trace = [] ∧
        (sc.log = none → e.state.user =
          (if sc.policy s.checks (sc.eventOf m).2 then (sc.prerestart.getD id) s.user
           else s.user)) := by
  induction d with
  | zero =>
    intro s m fuel hm hfuel _ hown
    obtain ⟨f, rfl⟩ : ∃ f, fuel = f + 1 := ⟨fuel - 1, by omega⟩
    simp only [Nat.add_zero] at hm
    subst hm
    have hw : (sc.sys.wait s).1 = sc.eventOf s.waits := rfl
    have hpid : (sc.sys.wait s).1.1 = pid := by rw [hw, hown]
    simp only [waitLoop, hpid, if_true]
    refine ⟨_, rfl, ?_⟩
    simp only
    have hS : (sc.sys.wait s).1.2 = (sc.eventOf s.waits).2 := by rw [hw]
    rw [hS]
    set s1 := (logEvent sc.supervisor (sc.eventOf s.waits).2 (sc.sys.wait s).2).1 with hs1
    have hs1f : s1.forks = s.forks ∧ s1.waits = s.waits + 1 ∧ s1.checks = s.checks := by
      rw [hs1]; simp only [logEvent, Script.supervisor, Script.sys]
      cases sc.log <;> simp
    have hs1u : sc.log = none → s1.user = s.user := by
      intro hl
      rw [hs1]; simp only [logEvent, Script.supervisor, Script.sys, hl]
      rfl
    obtain ⟨h1, h2, h3, h4, h4u⟩ := scripted_ownChildExited sc (sc.eventOf s.waits).2 s1
    obtain ⟨h5, h6⟩ := count_ownChildExited sc.supervisor (sc.eventOf s.waits).2 s1
    obtain ⟨-, h7, -⟩ := ownChildExited_trace sc.supervisor (sc.eventOf s.waits).2 s1
    obtain ⟨h8, h9⟩ := count_logCalls sc.supervisor (sc.eventOf s.waits).2
    have hres : (restartDecision sc.supervisor (sc.eventOf s.waits).2 s1).1
        = sc.policy s.checks (sc.eventOf s.waits).2 := by
      rw [← ownChildExited_restart, h1, hs1f.2.2]
    have hpre : sc.supervisor.m_prerestart.isSome = sc.prerestart.isSome := by
      simp [Script.supervisor]
    refine ⟨by rw [h1, hs1f.2.2], ownChildExited_status _ _ _, by rw [h2, hs1f.1],
      by rw [h3, hs1f.2.1], by rw [h4, hs1f.2.2], ?_, ?_, ?_, ?_⟩
    · rw [logEvent_trace]; simp [List.count_cons, List.count_append, h5, h8]
    · rw [logEvent_trace]; simp [List.count_cons, List.count_append, h6, h9, hres, hpre]
    · rw [logEvent_trace]
      show created (logCalls _ _ ++ _) = []
      rw [created_append, created_logCalls, h7]; rfl
    · intro hl
      rw [h4u, hs1f.2.2, hs1u hl]
  | succ d ih =>
    intro s m fuel hm hfuel hstray hown
    obtain ⟨f, rfl⟩ : ∃ f, fuel = f + 1 := ⟨fuel - 1, by omega⟩
    have hw : (sc.sys.wait s).1 = sc.eventOf s.waits := rfl
    have hpid : (sc.sys.wait s).1.1 ≠ pid := by
      rw [hw]; exact hstray s.waits (le_refl _) (by omega)
    simp only [waitLoop, hpid, if_false]
    set s1 := (logEvent sc.supervisor (sc.sys.wait s).1.2 (sc.sys.wait s).2).1 with hs1
    have hs1f : s1.forks = s.forks ∧ s1.waits = s.waits + 1 ∧ s1.checks = s.checks := by
      rw [hs1]; simp only [logEvent, Script.supervisor, Script.sys]
      cases sc.log <;> simp
    have hs1u : sc.log = none → s1.user = s.user := by
      intro hl
      rw [hs1]; simp only [logEvent, Script.supervisor, Script.sys, hl]
      rfl
    obtain ⟨e, he, h1, h2, h3, h4, h5, h6, h7, h8, h8u⟩ :=
      ih s1 m f (by omega) (by omega) (fun i hi him => hstray i (by omega) him) hown
    obtain ⟨h9, h10⟩ := count_logCalls sc.supervisor (sc.sys.wait s).1.2
    rw [he]
    refine ⟨_, rfl, ?_⟩
    simp only
    rw [hs1f.2.2] at h1 h5 h7 h8u
    rw [hs1f.1] at h3
    refine ⟨h1, h2, h3, h4, h5, ?_, ?_, ?_, ?_⟩
    · rw [logEvent_trace]; simp [List.count_cons, List.count_append, h6, h9]
    · rw [logEvent_trace]; simp [List.count_cons, List.count_append, h7, h10]
    · rw [logEvent_trace]
      show created (logCalls _ _ ++ _) = []
      rw [created_append, created_logCalls, h8]; rfl
    · intro hl
      rw [h8u hl, hs1u hl]

theorem count_strayCalls {σ : Type} (self : ProcessSupervisor σ) (strays : List (Int × Int)) :
    (strayCalls self strays).count .prefork = 0 ∧
      (strayCalls self strays).count .prerestart = 0 := by
  induction strays with
  | nil => simp [strayCalls]
  | cons ev evs ih =>
    obtain ⟨h1, h2⟩ := count_logCalls self ev.2
    simp [strayCalls, List.count_cons, List.count_append, h1, h2, ih.1, ih.2]

/-- Hook calls of one finished wait loop. -/
theorem count_waitLoop {σ : Type} (self : ProcessSupervisor σ) (sys : Sys σ) (pid : Int)
    (fuel : Nat) (s : σ) (e : CycleEnd σ) (h : waitLoop self sys pid fuel s = some e) :
    e.trace.count .prefork = 0 ∧
      e.trace.count .prerestart = (if e.restart && self.m_prerestart.isSome then 1 else 0) ∧
      created e.trace = [] := by
  obtain ⟨strays, S, s', -, ht, hr, -, -⟩ := waitLoop_shape self sys pid fuel s e h
  obtain ⟨h1, h2⟩ := count_strayCalls self strays
  obtain ⟨h3, h4⟩ := count_logCalls self S
  obtain ⟨h5, h6⟩ := count_ownChildExited self S s'
  obtain ⟨-, h7, -⟩ := ownChildExited_trace self S s'
  rw [ownChildExited_restart] at hr
  refine ⟨?_, ?_, ?_⟩
  · rw [ht]; simp [List.count_cons, List.count_append, h1, h3, h5]
  · rw [ht, hr]; simp [List.count_cons, List.count_append, h2, h4, h6]
  · rw [ht, created_append, created_strays]
    show created (logCalls self S ++ _) = []
    rw [created_append, created_logCalls, h7]; rfl

theorem count_safe_fork {σ : Type} (sys : Sys σ) (s : σ) :
    (safe_fork sys s).trace.count .prefork = 0 ∧
      (safe_fork sys s).trace.count .prerestart = 0 := by
  unfold safe_fork
  simp only
  split <;> simp

theorem count_defaultForkRoutine {σ : Type} (self : ProcessSupervisor σ) (sys : Sys σ) (s : σ) :
    (defaultForkRoutine self sys s).trace.count .prefork = 0 ∧
      (defaultForkRoutine self sys s).trace.count .prerestart = 0 := by
  obtain ⟨h1, h2⟩ := count_safe_fork sys s
  unfold defaultForkRoutine
  simp only
  split
  · exact ⟨h1, h2⟩
  · split
    · exact ⟨h1, h2⟩
    · split
      · split <;> simp [List.count_append, h1, h2]
      · exact ⟨h1, h2⟩

/-- Hook calls of one creation step. -/
theorem count_spawn {σ : Type} (self : ProcessSupervisor σ) (sys : Sys σ) (s : σ) :
    (spawn self sys s).trace.count .prefork = (if self.m_prefork.isSome then 1 else 0) ∧
      (spawn self sys s).trace.count .prerestart = 0 := by
  unfold spawn
  cases hp : self.m_prefork with
  | none =>
    cases hf : self.m_fork with
    | none =>
      obtain ⟨h1, h2⟩ := count_defaultForkRoutine self sys s
      simp only [List.nil_append]
      split
      · simpa using ⟨h1, h2⟩
      · split <;> simp [List.count_append, h1, h2]
    | some f =>
      simp only [List.nil_append]
      cases self.m_postfork <;> simp
  | some pre =>
    cases hf : self.m_fork with
    | none =>
      obtain ⟨h1, h2⟩ := count_defaultForkRoutine self sys (pre s)
      simp only
      split
      · simp [List.count_cons, h1, h2]
      · split <;> simp [List.count_cons, List.count_append, h1, h2]
    | some f =>
      simp only
      cases self.m_postfork <;> simp

/-- In every run of `start()` that returns, in any world: the pre-fork hook, when set,
has been called once per creation, and the pre-restart hook, when set, once per creation
but the last. -/
theorem start_hook_counts {σ : Type} (self : ProcessSupervisor σ) (sys : Sys σ)
    (waits cycles : Nat) (s : σ) (r : Ran σ Int) (v : Int)
    (h : start self sys waits cycles s = some r) (hv : r.result = .ok v) :
    1 ≤ (created r.trace).length ∧
      r.trace.count .prefork
        = (if self.m_prefork.isSome then (created r.trace).length else 0) ∧
      r.trace.count .prerestart
        = (if self.m_prerestart.isSome then (created r.trace).length - 1 else 0) := by
  induction cycles generalizing s r with
  | zero => simp [start] at h
  | succ n ih =>
    simp only [start] at h
    split at h
    · simp only [Option.some.injEq] at h
      subst h
      simp at hv
    · rename_i pid hpid
      obtain ⟨-, hsc⟩ := spawn_trace self sys s
      obtain ⟨c1, c2⟩ := count_spawn self sys s
      split at h
      · cases h
      · rename_i e he
        obtain ⟨w1, w2, w3⟩ := count_waitLoop self sys pid waits _ e he
        split at h
        · rename_i hres
          simp only [Option.map_eq_some'] at h
          obtain ⟨r', hr', rfl⟩ := h
          obtain ⟨i1, i2, i3⟩ := ih _ _ hr' hv
          simp only [hres, Bool.true_and] at w2
          refine ⟨?_, ?_, ?_⟩
          · simp only [created_append, List.length_append]; omega
          · simp only [List.count_append, created_append, List.length_append, c1, w1, i2,
              hsc pid hpid, w3]
            cases self.m_prefork <;> simp
          · simp only [List.count_append, created_append, List.length_append, c2, w2, i3,
              hsc pid hpid, w3]
            cases self.m_prerestart <;> simp
            omega
        · rename_i hres
          simp only [Option.some.injEq] at h
          subst h
          simp only [Bool.not_eq_true] at hres
          simp only [hres, Bool.false_and] at w2
          refine ⟨?_, ?_, ?_⟩
          · simp [created_append, hsc pid hpid]
          · simp only [List.count_append, created_append, List.length_append, c1, w1,
              hsc pid hpid, w3]
            cases self.m_prefork <;> simp
          · simp only [List.count_append, created_append, List.length_append, c2, w2,
              hsc pid hpid, w3]
            cases self.m_prerestart <;> simp

/-- Creation in a scripted run: with a creation routine set, or with the default routine
when at most one thread is counted and `fork()` returns neither 0 nor -1, the creation
step returns the scripted identifier. -/
theorem scripted_spawn {υ : Type} (sc : Script υ) (s : Scripted υ)
    (hfork : sc.customFork = true ∨
      (get_process_threads_count sc.statusFile sc.slack ≤ 1 ∧
        sc.pidOf s.forks ≠ 0 ∧ sc.pidOf s.forks ≠ -1)) :
    (spawn sc.supervisor sc.sys s).result = .ok (sc.pidOf s.forks) ∧
      (spawn sc.supervisor sc.sys s).state.forks = s.forks + 1 ∧
      (spawn sc.supervisor sc.sys s).state.waits = s.waits ∧
      (spawn sc.supervisor sc.sys s).state.checks = s.checks ∧
      (spawn sc.supervisor sc.sys s).trace.count .prefork
        = (if sc.prefork.isSome then 1 else 0) ∧
      (spawn sc.supervisor sc.sys s).trace.count .prerestart = 0 ∧
      (sc.postfork = none →
        (spawn sc.supervisor sc.sys s).state.user = (sc.prefork.getD id) s.user) := by
  rcases hfork with hc | ⟨ht, h0, h1⟩
  · simp only [spawn, Script.supervisor, hc, if_true]
    cases sc.prefork <;> cases sc.postfork <;> simp
  · have hnt : ¬ (get_process_threads_count sc.statusFile sc.slack > 1) := by omega
    cases hc : sc.customFork
    · simp only [spawn, Script.supervisor, hc, defaultForkRoutine, safe_fork, Script.sys]
      cases sc.prefork <;> cases sc.postfork <;> simp [hnt, h0, h1]
    · simp only [spawn, Script.supervisor, hc, if_true]
      cases sc.prefork <;> cases sc.postfork <;> simp

theorem Script.policy_index {υ : Type} (sc : Script υ) (h : sc.verdictOf.isSome = false)
    (a b : Nat) (S : Int) : sc.policy a S = sc.policy b S := by
  unfold Script.policy
  cases hv : sc.verdictOf with
  | none => rfl
  | some v => simp [hv] at h

/-- A scripted run from any point of the script: `N + 1` cycles, the last of which
decides not to restart. -/
theorem scripted_start {υ : Type} (sc : Script υ) (waits : Nat) :
    ∀ (N : Nat) (s : Scripted υ) (ends : Nat → Nat) (cycles : Nat), N < cycles →
      (sc.customFork = true ∨
        (get_process_threads_count sc.statusFile sc.slack ≤ 1 ∧
          ∀ k, k ≤ N → sc.pidOf (s.forks + k) ≠ 0 ∧ sc.pidOf (s.forks + k) ≠ -1)) →
      (∀ k, k ≤ N → cycleBegin s.waits ends k ≤ ends k ∧
        ends k < cycleBegin s.waits ends k + waits) →
      (∀ k, k ≤ N → ∀ i, cycleBegin s.waits ends k ≤ i → i < ends k →
        (sc.eventOf i).1 ≠ sc.pidOf (s.forks + k)) →
      (∀ k, k ≤ N → (sc.eventOf (ends k)).1 = sc.pidOf (s.forks + k)) →
      (∀ k, k ≤ N → sc.policy (s.checks + k) (sc.eventOf (ends k)).2 = decide (k < N)) →
      ∃ r, start sc.supervisor sc.sys waits cycles s = some r ∧
        r.result = .ok (if WIFEXITED (sc.eventOf (ends N)).2
          then WEXITSTATUS (sc.eventOf (ends N)).2 else 0) ∧
        r.trace.count .prefork = (if sc.prefork.isSome then N + 1 else 0) ∧
        r.trace.count .prerestart = (if sc.prerestart.isSome then N else 0) ∧
        (created r.trace).length = N + 1 ∧
        r.state.forks = s.forks + (N + 1) ∧
        r.state.waits = ends N + 1 ∧
        (sc.postfork = none → sc.log = none →
          r.state.user = (sc.prefork.getD id)
            (((sc.prerestart.getD id) ∘ (sc.prefork.getD id))^[N] s.user)) := by
  intro N
  induction N with
  | zero =>
    intro s ends cycles hc hfork hb hstray hown hpol
    obtain ⟨c, rfl⟩ : ∃ c, cycles = c + 1 := ⟨cycles - 1, by omega⟩
    have hf0 : sc.customFork = true ∨ (get_process_threads_count sc.statusFile sc.slack ≤ 1 ∧
        sc.pidOf s.forks ≠ 0 ∧ sc.pidOf s.forks ≠ -1) := by
      rcases hfork with h | ⟨h1, h2⟩
      · exact Or.inl h
      · exact Or.inr ⟨h1, by simpa using h2 0 (le_refl _)⟩
    obtain ⟨hs1, hs2, hs3, hs4, hs5, hs6, hsu⟩ := scripted_spawn sc s hf0
    obtain ⟨-, hs7⟩ := spawn_trace sc.supervisor sc.sys s
    have hb0 := hb 0 (le_refl _)
    simp only [cycleBegin] at hb0
    obtain ⟨e, he, h1, h2, h3, h4, h5, h6, h7, h8, h8u⟩ :=
      scripted_waitLoop sc (sc.pidOf s.forks) (ends 0 - s.waits)
        (spawn sc.supervisor sc.sys s).state (ends 0) waits
        (by rw [hs3]; omega) (by omega)
        (fun i hi him => by
          have := hstray 0 (le_refl _) i (by rw [hs3] at hi; exact hi) him
          simpa using this)
        (by simpa using hown 0 (le_refl _))
    have hp0 := hpol 0 (le_refl _)
    simp only [Nat.add_zero, lt_self_iff_false, decide_False] at hp0
    rw [hs4, hp0] at h1 h7 h8u
    simp only [start, hs1, he, h1]
    refine ⟨_, rfl, ?_, ?_, ?_, ?_, ?_, ?_, ?_⟩
    · simp only [h2]
    · simp only [if_false, List.count_append, hs5, h6]; simp
    · simp only [if_false, List.count_append, hs6, h7]; simp
    · simp only [if_false, created_append, hs7 _ hs1, h8]; simp
    · simp only [if_false, h3, hs2]
    · simp only [if_false, h4]
    · intro hpost hlog
      simp only [if_false, Function.iterate_zero, id_eq]
      rw [h8u hlog, hsu hpost]; simp
  | succ N ih =>
    intro s ends cycles hc hfork hb hstray hown hpol
    obtain ⟨c, rfl⟩ : ∃ c, cycles = c + 1 := ⟨cycles - 1, by omega⟩
    have hf0 : sc.customFork = true ∨ (get_process_threads_count sc.statusFile sc.slack ≤ 1 ∧
        sc.pidOf s.forks ≠ 0 ∧ sc.pidOf s.forks ≠ -1) := by
      rcases hfork with h | ⟨h1, h2⟩
      · exact Or.inl h
      · exact Or.inr ⟨h1, by simpa using h2 0 (Nat.zero_le _)⟩
    obtain ⟨hs1, hs2, hs3, hs4, hs5, hs6, hsu⟩ := scripted_spawn sc s hf0
    obtain ⟨-, hs7⟩ := spawn_trace sc.supervisor sc.sys s
    have hb0 := hb 0 (Nat.zero_le _)
    simp only [cycleBegin] at hb0
    obtain ⟨e, he, h1, h2, h3, h4, h5, h6, h7, h8, h8u⟩ :=
      scripted_waitLoop sc (sc.pidOf s.forks) (ends 0 - s.waits)
        (spawn sc.supervisor sc.sys s).state (ends 0) waits
        (by rw [hs3]; omega) (by omega)
        (fun i hi him => by
          have := hstray 0 (Nat.zero_le _) i (by rw [hs3] at hi; exact hi) him
          simpa using this)
        (by simpa using hown 0 (Nat.zero_le _))
    have hp0 := hpol 0 (Nat.zero_le _)
    simp only [Nat.add_zero, Nat.zero_lt_succ, decide_True] at hp0
    rw [hs4, hp0] at h1 h7 h8u
    rw [hs2] at h3
    rw [hs4] at h5
    have hbegin : ∀ k, cycleBegin e.state.waits (fun k => ends (k + 1)) k
        = cycleBegin s.waits ends (k + 1) := by
      intro k; cases k with
      | zero => simp [cycleBegin, h4]
      | succ k => simp [cycleBegin]
    have hchk : ∀ k S, sc.policy (e.state.checks + k) S = sc.policy (s.checks + (k + 1)) S := by
      intro k S
      cases hv : sc.verdictOf.isSome
      · exact sc.policy_index hv _ _ S
      · rw [h5, hv, if_pos rfl]; congr 1; omega
    obtain ⟨r, hr, hr1, hr2, hr3, hr4, hr5, hr6, hr7⟩ := ih e.state (fun k => ends (k + 1)) c (by omega)
      (by
        rcases hfork with h | ⟨ha, hb'⟩
        · exact Or.inl h
        · refine Or.inr ⟨ha, fun k hk => ?_⟩
          have := hb' (k + 1) (by omega)
          rw [h3]; rwa [show s.forks + 1 + k = s.forks + (k + 1) by omega])
      (fun k hk => by rw [hbegin]; exact hb (k + 1) (by omega))
      (fun k hk i hi him => by
        rw [hbegin] at hi
        have := hstray (k + 1) (by omega) i hi him
        rw [h3]; rwa [show s.forks + 1 + k = s.forks + (k + 1) by omega])
      (fun k hk => by
        have := hown (k + 1) (by omega)
        rw [h3]; rwa [show s.forks + 1 + k = s.forks + (k + 1) by omega])
      (fun k hk => by
        rw [hchk]
        have := hpol (k + 1) (by omega)
        rw [this]; simp)
    simp only [start, hs1, he, h1, if_true, hr, Option.map_some']
    refine ⟨_, rfl, hr1, ?_, ?_, ?_, ?_, hr6, ?_⟩
    · simp only [List.count_append, hs5, h6, hr2]
      cases sc.prefork <;> simp; omega
    · simp only [List.count_append, hs6, h7, hr3]
      cases sc.prerestart <;> simp; omega
    · simp only [created_append, hs7 _ hs1, h8, List.length_append, hr4]
      simp; omega
    · show r.state.forks = _
      rw [hr5, h3]; omega
    · intro hpost hlog
      show r.state.user = _
      rw [hr7 hpost hlog, h8u hlog, hsu hpost, Function.iterate_succ_apply]
      simp

/-- C3: in a scripted run in which, for each of the cycles `0..N`, the `wait` numbered
`ends k` is the first of the cycle to report the identifier returned by that cycle's
creation, and the restart policy answers true on the first `N` of these terminations and
false on the next, `start()` returns once the bounds allow `N + 1` cycles, and returns the
exit code of the last status.  Its trace holds `N + 1` creations, `N + 1` calls of the
pre-fork hook and `N` calls of the pre-restart hook (for `N = 0`: one cycle), and the world
it leaves is the world these calls make: replaying the trace, call by call, on the initial
world gives the final world; the creation primitive has been invoked `N + 1` times and
`wait` up to the event that ends cycle `N`; and when no other hook acts on the user
state, that state is the initial one after `N` rounds of pre-fork hook then pre-restart
hook, and one more pre-fork hook. -/
theorem restart_cycles_count {υ : Type} (sc : Script υ) (N : Nat) (ends : Nat → Nat)
    (waits cycles : Nat) (u : υ) (hcycles : N < cycles)
    (hfork : sc.customFork = true ∨
      (get_process_threads_count sc.statusFile sc.slack ≤ 1 ∧
        ∀ k, k ≤ N → sc.pidOf k ≠ 0 ∧ sc.pidOf k ≠ -1))
    (hwaits : ∀ k, k ≤ N → cycleBegin 0 ends k ≤ ends k ∧
      ends k < cycleBegin 0 ends k + waits)
    (hstray : ∀ k, k ≤ N → ∀ i, cycleBegin 0 ends k ≤ i → i < ends k →
      (sc.eventOf i).1 ≠ sc.pidOf k)
    (hown : ∀ k, k ≤ N → (sc.eventOf (ends k)).1 = sc.pidOf k)
    (hpol : ∀ k, k ≤ N → sc.policy k (sc.eventOf (ends k)).2 = decide (k < N)) :
    ∃ r, start sc.supervisor sc.sys waits cycles ⟨0, 0, 0, u⟩ = some r ∧
      r.result = .ok (if WIFEXITED (sc.eventOf (ends N)).2
        then WEXITSTATUS (sc.eventOf (ends N)).2 else 0) ∧
      r.trace.count .prefork = (if sc.prefork.isSome then N + 1 else 0) ∧
      r.trace.count .prerestart = (if sc.prerestart.isSome then N else 0) ∧
      (created r.trace).length = N + 1 ∧
      replay sc.supervisor sc.sys r.trace ⟨0, 0, 0, u⟩ = some r.state ∧
      r.state.forks = N + 1 ∧
      r.state.waits = ends N + 1 ∧
      (sc.postfork = none → sc.log = none →
        r.state.user = (sc.prefork.getD id)
          (((sc.prerestart.getD id) ∘ (sc.prefork.getD id))^[N] u)) := by
  obtain ⟨r, hr, h1, h2, h3, h4, h5, h6, h7⟩ :=
    scripted_start sc waits N ⟨0, 0, 0, u⟩ ends cycles hcycles
      (by simpa using hfork) hwaits (by simpa using hstray) (by simpa using hown)
      (by simpa using hpol)
  exact ⟨r, hr, h1, h2, h3, h4, replay_start _ _ _ _ _ _ hr, by simpa using h5, h6, h7⟩

theorem restart_cycles_count_witness :
    ∃ r, start sampleHooks.supervisor sampleHooks.sys 3 3 sampleInit = some r ∧
      r.result = .ok 7 ∧
      r.trace.count .prefork = 3 ∧
      r.trace.count .prerestart = 2 ∧
      (created r.trace).length = 3 ∧
      replay sampleHooks.supervisor sampleHooks.sys r.trace sampleInit = some r.state ∧
      r.state.forks = 3 ∧
      r.state.waits = 5 ∧
      r.state.user = 2003 := by
  obtain ⟨r, hr, h1, h2, h3, h4, h5, h6, h7, h8⟩ :=
    restart_cycles_count sampleHooks 2 sampleEnds 3 3 0 (by decide) (Or.inl rfl)
      (by intro k hk; interval_cases k <;> decide)
      (by
        intro k hk i h1 h2
        interval_cases k <;> simp only [cycleBegin, sampleEnds] at h1 h2 <;>
          interval_cases i <;> decide)
      (by intro k hk; interval_cases k <;> decide)
      (by intro k hk; interval_cases k <;> decide)
  exact ⟨r, hr, h1, h2, h3, h4, h5, h6, h7, h8 rfl rfl⟩

theorem start_returns_exit_code_witness :
    ∃ r, start sampleScript.supervisor sampleScript.sys 3 3 sampleInit = some r ∧
      r.result = .ok 7 ∧
      ∃ (pid S : Int) (s' : Scripted Nat),
        lastCreated r.trace = some pid ∧
        lastWait r.trace = some (pid, S) ∧
        7 = (if WIFEXITED S then WEXITSTATUS S else 0) ∧
        (WIFEXITED S = true → 7 = WEXITSTATUS S) ∧
        (WIFSIGNALED S = true → (7 : Int) = 0) ∧
        (restartDecision sampleScript.supervisor S s').1 = false :=
  ⟨_, rfl, rfl,
    start_returns_exit_code sampleScript.supervisor sampleScript.sys 3 3 sampleInit _ 7 rfl rfl⟩

theorem restart_decision_policy_witness :
    (sampleScript.sys.wait ⟨1, 1, 0, 1⟩).1 = (100, 9) ∧
    ∃ e, waitLoop sampleScript.supervisor sampleScript.sys 100 (0 + 1) ⟨1, 1, 0, 1⟩ = some e ∧
      (sampleScript.supervisor.m_restartCheck = none →
        e.restart = WIFSIGNALED 9 ∧ (WIFEXITED 9 = true → e.restart = false)) ∧
      (∀ check, sampleScript.supervisor.m_restartCheck = some check →
        e.restart = (check 9 (logEvent sampleScript.supervisor 9
          (sampleScript.sys.wait ⟨1, 1, 0, 1⟩).2).1).1) :=
  ⟨rfl, restart_decision_policy sampleScript.supervisor sampleScript.sys 100 9 0 ⟨1, 1, 0, 1⟩ rfl⟩

/-! ## Fork guard -/

/-- An entry of `2^63` threads is read as a negative count: the conversion of what
`strtoul` returns to `ssize_t` wraps, and `safe_fork()` then forks. -/
theorem threads_count_wraps :
    get_process_threads_count (some (sampleStatus (2 ^ 63))) [] = -(2 ^ 63) := by
  decide

theorem sendMessage_spec {υ : Type} (self : SignalMonitor υ) (signo : Int) :
    (self.m_signalPipe.data.length < self.m_signalPipe.capacity →
      (self.sendMessage signo).1 = 1 ∧
      (self.sendMessage signo).2.m_signalPipe.data
        = self.m_signalPipe.data ++ [toUint8 signo]) ∧
    (¬ self.m_signalPipe.data.length < self.m_signalPipe.capacity →
      (self.sendMessage signo).1 = -1 ∧
      (self.sendMessage signo).2.m_signalPipe.data = self.m_signalPipe.data) ∧
    0 ≤ toUint8 signo ∧ toUint8 signo < 256 := by
  refine ⟨fun h => ?_, fun h => ?_, ?_, ?_⟩
  · simp [SignalMonitor.sendMessage, Pipe.write, h]
  · simp [SignalMonitor.sendMessage, Pipe.write, h]
  · unfold toUint8; omega
  · unfold toUint8; omega

/-- C7: on a monitor whose pipe has room, `sendMessage(15)` queues the single byte 15
(so does `sendMessage(271)`, truncated to its low 8 bits) and returns 1, the byte count of
`write`, not the 0 that the header comment of `sendMessage` documents for success. -/
theorem sendMessage_success_returns_one :
    (sampleMonitor.sendMessage 15).1 = 1 ∧
      (sampleMonitor.sendMessage 15).1 ≠ 0 ∧
      (sampleMonitor.sendMessage 15).2.m_signalPipe.data = [15] ∧
      (sampleMonitor.sendMessage (256 + 15)).2.m_signalPipe.data = [15] := by
  decide

theorem run_fields {υ : Type} (m : SignalMonitor υ) :
    m.run.m_handler = m.m_handler ∧ m.run.m_needStop = m.m_needStop ∧
      m.run.returned = m.returned ∧ m.run.joined = m.joined ∧
      m.run.m_signalPipe.capacity = m.m_signalPipe.capacity := by
  unfold SignalMonitor.run
  split
  · split <;> simp
  · split <;> simp
  · simp only [Pipe.read]
    split
    · simp
    · rename_i r hr
      split at hr
      · cases hr
      · simp only [Option.some.injEq] at hr; subst hr; simp
  · split <;> simp
  · simp

theorem run_pending {υ : Type} (m : SignalMonitor υ) (h : m.m_handler.isSome = true) :
    m.run.pending = m.pending := by
  unfold SignalMonitor.run SignalMonitor.pending
  split
  · rename_i hpc; split <;> simp [hpc, inFlight]
  · rename_i hpc; split <;> simp [hpc, inFlight]
  · rename_i hpc
    simp only [Pipe.read]
    cases hd : m.m_signalPipe.data with
    | nil => simp [hpc, inFlight, hd]
    | cons ch rest => simp [hpc, inFlight, hd]
  · rename_i ch hpc
    cases hh : m.m_handler with
    | none => simp [hh] at h
    | some f => simp [hpc, inFlight]
  · rfl

theorem run_not_finished {υ : Type} (m : SignalMonitor υ) (hs : m.m_needStop = false)
    (hpc : m.m_thread ≠ .finished) : m.run.m_thread ≠ .finished := by
  unfold SignalMonitor.run
  split
  · simp [hs]
  · split <;> simp
  · split <;> simp
  · split <;> simp
  · rename_i h; exact absurd h hpc

theorem accepted_append (done rets : List Int) (signo ret : Int)
    (h : rets.length = done.length) :
    accepted (done ++ [signo]) (rets ++ [ret])
      = accepted done rets ++ (if ret = -1 then [] else [toUint8 signo]) := by
  induction done generalizing rets with
  | nil =>
    cases rets with
    | nil => simp [accepted]
    | cons r rs => simp at h
  | cons d ds ih =>
    cases rets with
    | nil => simp at h
    | cons r rs =>
      simp only [List.length_cons, Nat.add_right_cancel_iff] at h
      simp only [List.cons_append, accepted]
      split
      · exact ih rs h
      · show toUint8 d :: accepted (ds ++ [signo]) (rs ++ [ret]) = _
        rw [ih rs h]; rfl

theorem accepted_all (done rets : List Int) (h : rets.length = done.length)
    (hok : ∀ ret ∈ rets, ret ≠ -1) : accepted done rets = done.map toUint8 := by
  induction done generalizing rets with
  | nil => cases rets <;> simp [accepted]
  | cons d ds ih =>
    cases rets with
    | nil => simp at h
    | cons r rs =>
      simp only [List.length_cons, Nat.add_right_cancel_iff] at h
      have hr : r ≠ -1 := hok r (List.mem_cons_self _ _)
      simp only [accepted, hr, if_false, List.map_cons]
      rw [ih rs h fun ret hret => hok ret (List.mem_cons_of_mem _ hret)]

theorem accepted_length_le (done rets : List Int) : (accepted done rets).length ≤ done.length := by
  induction done generalizing rets with
  | nil => cases rets <;> simp [accepted]
  | cons d ds ih =>
    cases rets with
    | nil => simp [accepted]
    | cons r rs =>
      simp only [accepted]
      split
      · have := ih rs; simp only [List.length_cons]; omega
      · have := ih rs; simp only [List.length_cons]; omega

theorem sendMessage_pending {υ : Type} (m : SignalMonitor υ) (signo : Int) :
    (m.sendMessage signo).2.pending
        = m.pending ++ (if (m.sendMessage signo).1 = -1 then [] else [toUint8 signo]) ∧
      (m.sendMessage signo).2.returned = m.returned ++ [(m.sendMessage signo).1] ∧
      (m.sendMessage signo).2.m_handler = m.m_handler ∧
      (m.sendMessage signo).2.m_needStop = m.m_needStop ∧
      (m.sendMessage signo).2.m_thread = m.m_thread ∧
      (m.sendMessage signo).2.handled = m.handled := by
  unfold SignalMonitor.sendMessage SignalMonitor.pending Pipe.write
  by_cases h : m.m_signalPipe.data.length < m.m_signalPipe.capacity
  · simp [h]
  · simp [h]

/-! ## Signal monitor: the worker thread on its own -/

theorem need_run {υ : Type} (m : SignalMonitor υ) : m.run.need ≤ m.need - 1 := by
  unfold SignalMonitor.run
  split
  · rename_i hpc
    split
    · simp [SignalMonitor.need]
    · cases hd : m.m_signalPipe.data <;> simp [SignalMonitor.need, hpc, hd]
  · rename_i hpc
    cases hd : m.m_signalPipe.data <;> simp [SignalMonitor.need, hpc, hd]
  · rename_i hpc
    cases hd : m.m_signalPipe.data with
    | nil => simp [SignalMonitor.need, hpc, hd, Pipe.read]
    | cons ch rest => simp [SignalMonitor.need, hpc, hd, Pipe.read]; omega
  · rename_i ch hpc
    split <;> simp [SignalMonitor.need, hpc]
  · rename_i hpc; simp [SignalMonitor.need, hpc]

theorem handled_of_need_zero {υ : Type} (m : SignalMonitor υ) (hpc : m.m_thread ≠ .finished)
    (h : m.need = 0) : m.handled = m.pending := by
  unfold SignalMonitor.need at h
  unfold SignalMonitor.pending
  split at h
  · rename_i h1
    split at h
    · rename_i h2
      simp only [List.isEmpty_eq_true] at h2
      simp [h1, h2, inFlight]
    · omega
  · rename_i h1
    split at h
    · rename_i h2
      simp only [List.isEmpty_eq_true] at h2
      simp [h1, h2, inFlight]
    · omega
  · rename_i h1
    have h2 : m.m_signalPipe.data = [] := by
      cases hd : m.m_signalPipe.data with
      | nil => rfl
      | cons a l => rw [hd] at h; simp at h
    simp [h1, h2, inFlight]
  · omega
  · rename_i h1; exact absurd h1 hpc

/-- The worker thread running `k` steps with no other thread taking a step. -/
theorem workers_only {υ : Type} (k : Nat) (m : SignalMonitor υ)
    (hh : m.m_handler.isSome = true) (hs : m.m_needStop = false)
    (hpc : m.m_thread ≠ .finished) :
    ∀ prog, (interleave (List.replicate k .worker) prog m).2 = prog ∧
      (interleave (List.replicate k .worker) prog m).1.pending = m.pending ∧
      (interleave (List.replicate k .worker) prog m).1.need ≤ m.need - k ∧
      (interleave (List.replicate k .worker) prog m).1.m_thread ≠ .finished ∧
      (interleave (List.replicate k .worker) prog m).1.m_handler = m.m_handler ∧
      (interleave (List.replicate k .worker) prog m).1.m_needStop = false ∧
      (interleave (List.replicate k .worker) prog m).1.returned = m.returned ∧
      (interleave (List.replicate k .worker) prog m).1.m_signalPipe.capacity
        = m.m_signalPipe.capacity := by
  induction k generalizing m with
  | zero => intro prog; simp [interleave, hs, hpc]
  | succ k ih =>
    intro prog
    obtain ⟨f1, f2, f3, f4, f5⟩ := run_fields m
    have h := ih m.run (by rw [f1]; exact hh) (by rw [f2]; exact hs) (run_not_finished m hs hpc)
      prog
    simp only [List.replicate_succ, interleave]
    obtain ⟨h1, h2, h3, h4, h5, h6, h7, h8⟩ := h
    refine ⟨h1, by rw [h2, run_pending m hh], ?_, h4, by rw [h5, f1], h6, by rw [h7, f3],
      by rw [h8, f5]⟩
    have := need_run m
    omega

/-- When the worker has taken at least `need` steps, the handler has been invoked for
every byte that was pending, in order. -/
theorem workers_drain {υ : Type} (k : Nat) (m : SignalMonitor υ)
    (hh : m.m_handler.isSome = true) (hs : m.m_needStop = false)
    (hpc : m.m_thread ≠ .finished) (hk : m.need ≤ k) (prog : List CallerStep) :
    (interleave (List.replicate k .worker) prog m).1.handled = m.pending := by
  obtain ⟨-, h2, h3, h4, -⟩ := workers_only k m hh hs hpc prog
  rw [← h2]
  exact handled_of_need_zero _ h4 (by omega)

theorem need_le {υ : Type} (m : SignalMonitor υ) :
    m.need ≤ 2 * m.m_signalPipe.data.length + 2 := by
  unfold SignalMonitor.need
  split
  · split <;> omega
  · split <;> omega
  · omega
  · omega
  · omega

/-! ## Signal monitor: what the handler did to the user state

The user state is touched by the handler only: at any point of any interleaving it is the
initial user state after one application of the handler per byte handled, in order. -/

theorem run_user {υ : Type} (m : SignalMonitor υ) (h : Int → υ → υ) (u0 : υ)
    (hh : m.m_handler = some h ∨ m.m_handler = none)
    (hu : m.user = m.handled.foldl (fun u ch => h ch u) u0) :
    (m.run.m_handler = some h ∨ m.run.m_handler = none) ∧
      m.run.user = m.run.handled.foldl (fun u ch => h ch u) u0 := by
  unfold SignalMonitor.run
  split
  · split <;> exact ⟨hh, hu⟩
  · split <;> exact ⟨hh, hu⟩
  · split <;> exact ⟨hh, hu⟩
  · split
    · rename_i ch handler hm
      have hEq : handler = h := by
        rcases hh with hh | hh
        · rw [hh] at hm; exact (Option.some.inj hm).symm
        · rw [hh] at hm; cases hm
      subst hEq
      refine ⟨hh, ?_⟩
      simp only [List.foldl_append, List.foldl_cons, List.foldl_nil]
      rw [← hu]
    · exact ⟨hh, hu⟩
  · exact ⟨hh, hu⟩

theorem callerStep_user {υ : Type} (m m' : SignalMonitor υ) (c : CallerStep)
    (hc : m.callerStep c = some m') :
    (m'.m_handler = m.m_handler ∨ m'.m_handler = none) ∧ m'.user = m.user ∧
      m'.handled = m.handled := by
  cases c with
  | sendMessage signo =>
    simp only [SignalMonitor.callerStep, Option.some.injEq] at hc
    subst hc
    exact ⟨Or.inl rfl, rfl, rfl⟩
  | setNeedStop =>
    simp only [SignalMonitor.callerStep, Option.some.injEq] at hc
    subst hc
    exact ⟨Or.inl rfl, rfl, rfl⟩
  | clearHandler =>
    simp only [SignalMonitor.callerStep, Option.some.injEq] at hc
    subst hc
    exact ⟨Or.inr rfl, rfl, rfl⟩
  | sendDummy =>
    simp only [SignalMonitor.callerStep, Option.some.injEq] at hc
    subst hc
    exact ⟨Or.inl rfl, rfl, rfl⟩
  | join =>
    simp only [SignalMonitor.callerStep] at hc
    split at hc
    · simp only [Option.some.injEq] at hc
      subst hc
      exact ⟨Or.inl rfl, rfl, rfl⟩
    · cases hc

/-- Under every interleaving of any caller program with the worker, the user state is
the one the handler calls recorded in `handled` make of the initial user state. -/
theorem interleave_user {υ : Type} (h : Int → υ → υ) (u0 : υ) (sched : List Thread) :
    ∀ (prog : List CallerStep) (m : SignalMonitor υ),
      (m.m_handler = some h ∨ m.m_handler = none) →
      m.user = m.handled.foldl (fun u ch => h ch u) u0 →
      ((interleave sched prog m).1.m_handler = some h ∨
        (interleave sched prog m).1.m_handler = none) ∧
      (interleave sched prog m).1.user
        = (interleave sched prog m).1.handled.foldl (fun u ch => h ch u) u0 := by
  induction sched with
  | nil => intro prog m hh hu; exact ⟨hh, hu⟩
  | cons t sched ih =>
    intro prog m hh hu
    cases t with
    | worker =>
      simp only [interleave]
      obtain ⟨hh', hu'⟩ := run_user m h u0 hh hu
      exact ih prog m.run hh' hu'
    | caller =>
      cases prog with
      | nil => simp only [interleave]; exact ih [] m hh hu
      | cons c prog =>
        simp only [interleave]
        cases hc : m.callerStep c with
        | none => exact ih _ m hh hu
        | some m' =>
          obtain ⟨k1, k2, k3⟩ := callerStep_user m m' c hc
          refine ih prog m' ?_ (by rw [k2, k3]; exact hu)
          rcases k1 with k1 | k1
          · rw [k1]; exact hh
          · exact Or.inr k1

/-! ## Signal monitor: senders interleaved with the worker -/

/-- Invariant of any interleaving of `sendMessage` calls with the worker: what has been
handled, is in flight or is queued is exactly what was accepted, in the order sent. -/
theorem sends_interleaved {υ : Type} (sched : List Thread) :
    ∀ (done rest : List Int) (m : SignalMonitor υ), m.m_handler.isSome = true →
      m.m_needStop = false → m.m_thread ≠ .finished → m.returned.length = done.length →
      m.pending = accepted done m.returned →
      ∃ k, k ≤ rest.length ∧
        (interleave sched (rest.map .sendMessage) m).2 = (rest.drop k).map .sendMessage ∧
        (interleave sched (rest.map .sendMessage) m).1.returned.length = done.length + k ∧
        (interleave sched (rest.map .sendMessage) m).1.pending
          = accepted (done ++ rest.take k)
              (interleave sched (rest.map .sendMessage) m).1.returned ∧
        (interleave sched (rest.map .sendMessage) m).1.m_handler.isSome = true ∧
        (interleave sched (rest.map .sendMessage) m).1.m_needStop = false ∧
        (interleave sched (rest.map .sendMessage) m).1.m_thread ≠ .finished := by
  induction sched with
  | nil =>
    intro done rest m hh hs hpc hl hp
    exact ⟨0, Nat.zero_le _, by simp [interleave], by simp [interleave, hl],
      by simp [interleave, hp], by simp [interleave, hh], by simp [interleave, hs],
      by simp [interleave, hpc]⟩
  | cons t sched ih =>
    intro done rest m hh hs hpc hl hp
    cases t with
    | worker =>
      obtain ⟨f1, f2, f3, -⟩ := run_fields m
      simp only [interleave]
      exact ih done rest m.run (by rw [f1]; exact hh) (by rw [f2]; exact hs)
        (run_not_finished m hs hpc) (by rw [f3]; exact hl)
        (by rw [f3, run_pending m hh]; exact hp)
    | caller =>
      cases rest with
      | nil =>
        simp only [List.map_nil, interleave]
        have := ih done [] m hh hs hpc hl hp
        simpa using this
      | cons v rest =>
        obtain ⟨g1, g2, g3, g4, g5, -⟩ := sendMessage_pending m v
        simp only [List.map_cons, interleave, SignalMonitor.callerStep]
        obtain ⟨k, hk, h1, h2, h3, h4, h5, h6⟩ := ih (done ++ [v]) rest (m.sendMessage v).2
          (by rw [g3]; exact hh) (by rw [g4]; exact hs) (by rw [g5]; exact hpc)
          (by rw [g2]; simp [hl])
          (by rw [g1, g2, hp, accepted_append done m.returned v _ hl])
        refine ⟨k + 1, by simp only [List.length_cons]; omega, by simpa using h1, ?_, ?_, h4, h5,
          h6⟩
        · rw [h2]; simp only [List.length_append, List.length_singleton]; omega
        · rw [h3]; simp

/-- C8: on a monitor with the handler `h` set and nothing pending, under every
interleaving of the `sendMessage` calls for `signos` with the steps of the worker thread:
the bytes handled, in flight and queued are, in order, exactly the bytes of the calls made
so far whose write succeeded (nothing coalesced, dropped or reordered), and the user
state is the initial one after one application of `h` per byte handled, in that order;
once all calls have been made and none failed, `2 N + 2` further worker steps have the
handler invoked exactly once per call with the bytes in the order sent, the user state
being the initial one after `h` was applied to each byte sent, in the order sent; and the
worker leaves the drain loop exactly when `read` reports that nothing is available. -/
theorem sends_reach_handler {υ : Type} (m : SignalMonitor υ) (h : Int → υ → υ)
    (signos : List Int) (sched : List Thread) (K : Nat) (hh : m.m_handler = some h)
    (hs : m.m_needStop = false) (hpc : m.m_thread ≠ .finished) (hr : m.returned = [])
    (hp : m.pending = []) :
    (∃ k, k ≤ signos.length ∧
      (interleave sched (signos.map .sendMessage) m).2 = (signos.drop k).map .sendMessage ∧
      (interleave sched (signos.map .sendMessage) m).1.returned.length = k ∧
      (interleave sched (signos.map .sendMessage) m).1.handled
          ++ inFlight (interleave sched (signos.map .sendMessage) m).1.m_thread
          ++ (interleave sched (signos.map .sendMessage) m).1.m_signalPipe.data
        = accepted (signos.take k)
            (interleave sched (signos.map .sendMessage) m).1.returned) ∧
    (interleave sched (signos.map .sendMessage) m).1.user
      = (interleave sched (signos.map .sendMessage) m).1.handled.foldl
          (fun u ch => h ch u) m.user ∧
    ((interleave sched (signos.map .sendMessage) m).2 = [] →
      (∀ ret ∈ (interleave sched (signos.map .sendMessage) m).1.returned, ret ≠ -1) →
      2 * signos.length + 2 ≤ K →
      (interleave (List.replicate K .worker) []
          (interleave sched (signos.map .sendMessage) m).1).1.handled
        = signos.map toUint8 ∧
      (interleave (List.replicate K .worker) []
          (interleave sched (signos.map .sendMessage) m).1).1.handled.length
        = signos.length ∧
      (interleave (List.replicate K .worker) []
          (interleave sched (signos.map .sendMessage) m).1).1.user
        = (signos.map toUint8).foldl (fun u ch => h ch u) m.user) ∧
    (∀ d : SignalMonitor υ, d.m_thread = .drain →
      (d.run.m_thread = .loopHead ↔ d.m_signalPipe.read = none) ∧
      (∀ ch p, d.m_signalPipe.read = some (ch, p) → d.run.m_thread = .dispatch ch)) := by
  have hsome : m.m_handler.isSome = true := by rw [hh]; rfl
  have hhandled : m.handled = [] := by
    have := hp
    simp only [SignalMonitor.pending, List.append_eq_nil] at this
    exact this.1.1
  have hu0 : m.user = m.handled.foldl (fun u ch => h ch u) m.user := by
    rw [hhandled]; rfl
  obtain ⟨hmh, hmu⟩ := interleave_user h m.user sched (signos.map .sendMessage) m
    (Or.inl hh) hu0
  obtain ⟨k, hk, h1, h2, h3, h4, h5, h6⟩ :=
    sends_interleaved sched [] signos m hsome hs hpc (by simp [hr])
      (by simp [hp, hr, accepted])
  simp only [List.length_nil, Nat.zero_add, List.nil_append] at h2 h3
  refine ⟨⟨k, hk, h1, h2, h3⟩, hmu, ?_, ?_⟩
  · intro hdone hok hK
    rw [h1] at hdone
    have hkl : k = signos.length := by
      have : signos.drop k = [] := by simpa using hdone
      have := List.drop_eq_nil_iff.mp this
      omega
    subst hkl
    rw [List.take_length] at h3
    have hacc := accepted_all signos _ h2 hok
    have hlen : (interleave sched (signos.map .sendMessage) m).1.m_signalPipe.data.length
        ≤ signos.length := by
      have h7 : (interleave sched (signos.map .sendMessage) m).1.pending.length
          = signos.length := by rw [h3, hacc]; simp
      simp only [SignalMonitor.pending, List.length_append] at h7
      omega
    have hneed := need_le (interleave sched (signos.map .sendMessage) m).1
    have hfin := workers_drain K _ h4 h5 h6 (by omega) []
    rw [h3, hacc] at hfin
    obtain ⟨-, hfu⟩ := interleave_user h m.user (List.replicate K .worker) []
      (interleave sched (signos.map .sendMessage) m).1 hmh hmu
    rw [hfin] at hfu
    rw [hfin]
    exact ⟨rfl, by simp, hfu⟩
  · intro d hd
    unfold SignalMonitor.run
    rw [hd]
    cases hread : d.m_signalPipe.read with
    | none => simp
    | some r =>
      refine ⟨by simp, fun ch p hcp => ?_⟩
      simp only [Option.some.injEq] at hcp
      subst hcp; rfl

theorem sends_reach_handler_witness :
    (∃ k, k ≤ [15, 15, 2].length ∧
      (interleave [.caller, .worker, .worker, .caller, .worker, .caller]
        ([15, 15, 2].map .sendMessage) sampleMonitor).2
          = (([15, 15, 2] : List Int).drop k).map .sendMessage ∧
      (interleave [.caller, .worker, .worker, .caller, .worker, .caller]
        ([15, 15, 2].map .sendMessage) sampleMonitor).1.returned.length = k ∧
      (interleave [.caller, .worker, .worker, .caller, .worker, .caller]
          ([15, 15, 2].map .sendMessage) sampleMonitor).1.handled
          ++ inFlight (interleave [.caller, .worker, .worker, .caller, .worker, .caller]
            ([15, 15, 2].map .sendMessage) sampleMonitor).1.m_thread
          ++ (interleave [.caller, .worker, .worker, .caller, .worker, .caller]
            ([15, 15, 2].map .sendMessage) sampleMonitor).1.m_signalPipe.data
        = accepted (([15, 15, 2] : List Int).take k)
            (interleave [.caller, .worker, .worker, .caller, .worker, .caller]
              ([15, 15, 2].map .sendMessage) sampleMonitor).1.returned) ∧
    (interleave (List.replicate 8 .worker) []
        (interleave [.caller, .worker, .worker, .caller, .worker, .caller]
          ([15, 15, 2].map .sendMessage) sampleMonitor).1).1.handled = [15, 15, 2] ∧
    (interleave (List.replicate 8 .worker) []
        (interleave [.caller, .worker, .worker, .caller, .worker, .caller]
          ([15, 15, 2].map .sendMessage) sampleMonitor).1).1.user = 3 :=
  ⟨(sends_reach_handler sampleMonitor (fun _ u => u + 1) [15, 15, 2]
      [.caller, .worker, .worker, .caller, .worker, .caller] 8 rfl rfl (by decide) rfl rfl).1,
    ((sends_reach_handler sampleMonitor (fun _ u => u + 1) [15, 15, 2]
      [.caller, .worker, .worker, .caller, .worker, .caller] 8 rfl rfl (by decide) rfl
        rfl).2.2.1 rfl (by decide) (by decide)).1,
    ((sends_reach_handler sampleMonitor (fun _ u => u + 1) [15, 15, 2]
      [.caller, .worker, .worker, .caller, .worker, .caller] 8 rfl rfl (by decide) rfl
        rfl).2.2.1 rfl (by decide) (by decide)).2.2⟩

/-! ## Signal monitor: destruction -/

theorem interleave_append {υ : Type} (s1 s2 : List Thread) :
    ∀ (prog : List CallerStep) (m : SignalMonitor υ),
      interleave (s1 ++ s2) prog m
        = interleave s2 (interleave s1 prog m).2 (interleave s1 prog m).1 := by
  induction s1 with
  | nil => intro prog m; rfl
  | cons t s1 ih =>
    intro prog m
    cases t with
    | worker => simp only [List.cons_append, interleave]; exact ih _ _
    | caller =>
      cases prog with
      | nil => simp only [List.cons_append, interleave]; exact ih _ _
      | cons c prog =>
        simp only [List.cons_append, interleave]
        cases m.callerStep c with
        | none => exact ih _ _
        | some m' => exact ih _ _

theorem run_handled_grows {υ : Type} (m : SignalMonitor υ) : m.handled <+: m.run.handled := by
  unfold SignalMonitor.run
  split
  · split <;> exact List.prefix_refl _
  · split <;> exact List.prefix_refl _
  · split <;> exact List.prefix_refl _
  · split
    · exact List.prefix_append _ _
    · exact List.prefix_refl _
  · exact List.prefix_refl _

theorem run_handled_none {υ : Type} (m : SignalMonitor υ) (h : m.m_handler = none) :
    m.run.handled = m.handled := by
  unfold SignalMonitor.run
  split
  · split <;> rfl
  · split <;> rfl
  · split <;> rfl
  · rw [h]
  · rfl

theorem handled_prefix_pending {υ : Type} (m : SignalMonitor υ) : m.handled <+: m.pending := by
  unfold SignalMonitor.pending
  rw [List.append_assoc]
  exact List.prefix_append _ _

/-- The destructor's thread part, from its statement number `j` on, against the worker:
what the handler has seen only grows while the handler is set, and is frozen once the
handler has been cleared. -/
theorem destructor_phase {υ : Type} (A B : List Int) (sched : List Thread) :
    ∀ (j : Nat) (m : SignalMonitor υ), j ≤ 4 → A <+: m.handled →
      (j ≤ 1 → m.m_handler.isSome = true ∧ m.pending <+: B) →
      (2 ≤ j → m.m_handler = none ∧ m.handled <+: B) →
      A <+: (interleave sched (destructorSteps.drop j) m).1.handled ∧
        (interleave sched (destructorSteps.drop j) m).1.handled <+: B := by
  induction sched with
  | nil =>
    intro j m hj hA h1 h2
    simp only [interleave]
    refine ⟨hA, ?_⟩
    by_cases hj1 : j ≤ 1
    · exact (handled_prefix_pending m).trans (h1 hj1).2
    · exact (h2 (by omega)).2
  | cons t sched ih =>
    intro j m hj hA h1 h2
    cases t with
    | worker =>
      simp only [interleave]
      obtain ⟨f1, -⟩ := run_fields m
      refine ih j m.run hj (hA.trans (run_handled_grows m)) (fun hj1 => ?_) (fun hj2 => ?_)
      · obtain ⟨hh, hp⟩ := h1 hj1
        exact ⟨by rw [f1]; exact hh, by rw [run_pending m hh]; exact hp⟩
      · obtain ⟨hh, hp⟩ := h2 hj2
        exact ⟨by rw [f1]; exact hh, by rw [run_handled_none m hh]; exact hp⟩
    | caller =>
      interval_cases j
      · -- `m_needStop = true`
        simp only [destructorSteps, List.drop_zero, interleave, SignalMonitor.callerStep]
        exact ih 1 _ (by omega) hA (fun _ => h1 (by omega)) (fun h => by omega)
      · -- `m_handler = MessageHandler()`
        simp only [destructorSteps, List.drop_succ_cons, List.drop_zero, interleave,
          SignalMonitor.callerStep]
        exact ih 2 _ (by omega) hA (fun h => by omega)
          (fun _ => ⟨rfl, (handled_prefix_pending m).trans (h1 (by omega)).2⟩)
      · -- `sendMessage(255)`
        simp only [destructorSteps, List.drop_succ_cons, List.drop_zero, interleave,
          SignalMonitor.callerStep]
        obtain ⟨-, -, g3, -, -, g6⟩ := sendMessage_pending m 255
        exact ih 3 _ (by omega) (by rw [g6]; exact hA) (fun h => by omega)
          (fun _ => ⟨by rw [g3]; exact (h2 (by omega)).1, by rw [g6]; exact (h2 (by omega)).2⟩)
      · -- `m_thread.join()`
        simp only [destructorSteps, List.drop_succ_cons, List.drop_zero, interleave,
          SignalMonitor.callerStep]
        split
        · rename_i m' hm'
          split at hm'
          · simp only [Option.some.injEq] at hm'
            subst hm'
            exact ih 4 _ (by omega) hA (fun h => by omega) (fun _ => h2 (by omega))
          · cases hm'
        · exact ih 3 m (by omega) hA (fun h => by omega) (fun _ => h2 (by omega))
      · -- the destructor's thread part is over
        simp only [destructorSteps, List.drop_succ_cons, List.drop_nil, interleave]
        exact ih 4 m (by omega) hA (fun h => by omega) (fun _ => h2 (by omega))

/-- Running `sendMessage(V)` and then the destructor against the worker: the handler
sees at most the byte of `V`. -/
theorem send_then_destroy {υ : Type} (V : Int) (sched : List Thread) :
    ∀ (m : SignalMonitor υ), m.m_handler.isSome = true → m.pending = [] →
      (interleave sched (.sendMessage V :: destructorSteps) m).1.handled <+: [toUint8 V] := by
  induction sched with
  | nil =>
    intro m hh hp
    simp only [interleave]
    have := handled_prefix_pending m
    rw [hp] at this
    exact this.trans (List.nil_prefix)
  | cons t sched ih =>
    intro m hh hp
    cases t with
    | worker =>
      simp only [interleave]
      obtain ⟨f1, -⟩ := run_fields m
      exact ih m.run (by rw [f1]; exact hh) (by rw [run_pending m hh]; exact hp)
    | caller =>
      simp only [interleave, SignalMonitor.callerStep]
      obtain ⟨g1, -, g3, -, -, g6⟩ := sendMessage_pending m V
      have hpre : (m.sendMessage V).2.pending <+: [toUint8 V] := by
        rw [g1, hp]
        split
        · exact List.nil_prefix
        · exact List.prefix_refl _
      have := destructor_phase [] [toUint8 V] sched 0 (m.sendMessage V).2 (by omega)
        List.nil_prefix (fun _ => ⟨by rw [g3]; exact hh, hpre⟩) (fun h => by omega)
      simpa using this.2

theorem prefix_singleton {α : Type} (l : List α) (a : α) (h : l <+: [a]) : l = [] ∨ l = [a] := by
  obtain ⟨t, ht⟩ := h
  cases l with
  | nil => exact Or.inl rfl
  | cons b l =>
    right
    simp only [List.cons_append, List.cons.injEq, List.append_eq_nil] at ht
    rw [ht.1, ht.2.1]

/-- C9, as stated, fails: with the worker waiting in `select`, let the caller run
`sendMessage(15)` and the first three statements of the destructor before the worker
takes its next step.  The worker then reads 15 and the dummy 255 with no handler set,
leaves its loop, and the destructor's `join` returns: the handler was never invoked, and
the counter it increments is still 0. -/
theorem final_event_can_be_lost :
    (interleave
        [.worker, .caller, .caller, .caller, .caller,
          .worker, .worker, .worker, .worker, .worker, .worker, .worker, .caller]
        (.sendMessage 15 :: destructorSteps) sampleMonitor).1.joined = true ∧
      (interleave
        [.worker, .caller, .caller, .caller, .caller,
          .worker, .worker, .worker, .worker, .worker, .worker, .worker, .caller]
        (.sendMessage 15 :: destructorSteps) sampleMonitor).1.handled = [] ∧
      (interleave
        [.worker, .caller, .caller, .caller, .caller,
          .worker, .worker, .worker, .worker, .worker, .worker, .worker, .caller]
        (.sendMessage 15 :: destructorSteps) sampleMonitor).1.returned = [1, 1] ∧
      (interleave
        [.worker, .caller, .caller, .caller, .caller,
          .worker, .worker, .worker, .worker, .worker, .worker, .worker, .caller]
        (.sendMessage 15 :: destructorSteps) sampleMonitor).2 = [] ∧
      (interleave
        [.worker, .caller, .caller, .caller, .caller,
          .worker, .worker, .worker, .worker, .worker, .worker, .worker, .caller]
        (.sendMessage 15 :: destructorSteps) sampleMonitor).1.user = 0 := by
  decide

/-- C9, amended: for every `V` in `1..254` and every interleaving of the worker with a
caller that runs `sendMessage(V)` and then the destructor, the handler has been invoked
either not at all or exactly once, with `V` (never with the dummy 255); and it has been
invoked with `V` whenever the worker takes at least four steps between the `sendMessage`
call and the first statement of the destructor.  The user state tells the same: with `h`
the handler set, it is the initial user state when the handler was not invoked and
`h V` of it when it was. -/
theorem final_event_delivery {υ : Type} (m : SignalMonitor υ) (V : Int) (h1 : 1 ≤ V)
    (h254 : V ≤ 254) (hh : m.m_handler.isSome = true) (hs : m.m_needStop = false)
    (hpc : m.m_thread ≠ .finished) (hp : m.pending = [])
    (hcap : 0 < m.m_signalPipe.capacity) :
    (∀ sched : List Thread,
      (interleave sched (.sendMessage V :: destructorSteps) m).1.handled = [] ∨
      (interleave sched (.sendMessage V :: destructorSteps) m).1.handled = [V]) ∧
    (∀ (n k : Nat) (rest : List Thread), 4 ≤ k →
      (interleave (List.replicate n .worker ++ .caller :: (List.replicate k .worker ++ rest))
        (.sendMessage V :: destructorSteps) m).1.handled = [V]) ∧
    (∀ h : Int → υ → υ, m.m_handler = some h →
      (∀ sched : List Thread,
        ((interleave sched (.sendMessage V :: destructorSteps) m).1.handled = [] ∧
          (interleave sched (.sendMessage V :: destructorSteps) m).1.user = m.user) ∨
        ((interleave sched (.sendMessage V :: destructorSteps) m).1.handled = [V] ∧
          (interleave sched (.sendMessage V :: destructorSteps) m).1.user = h V m.user)) ∧
      (∀ (n k : Nat) (rest : List Thread), 4 ≤ k →
        (interleave
            (List.replicate n .worker ++ .caller :: (List.replicate k .worker ++ rest))
          (.sendMessage V :: destructorSteps) m).1.user = h V m.user)) := by
  have hV : toUint8 V = V := by unfold toUint8; omega
  have hhandled : m.handled = [] := by
    have := hp
    simp only [SignalMonitor.pending, List.append_eq_nil] at this
    exact this.1.1
  have huser : ∀ (h : Int → υ → υ), m.m_handler = some h → ∀ sched : List Thread,
      (interleave sched (.sendMessage V :: destructorSteps) m).1.user
        = (interleave sched (.sendMessage V :: destructorSteps) m).1.handled.foldl
            (fun u ch => h ch u) m.user := by
    intro h hm sched
    exact (interleave_user h m.user sched _ m (Or.inl hm) (by rw [hhandled]; rfl)).2
  have hA : ∀ sched : List Thread,
      (interleave sched (.sendMessage V :: destructorSteps) m).1.handled = [] ∨
      (interleave sched (.sendMessage V :: destructorSteps) m).1.handled = [V] := by
    intro sched
    have := send_then_destroy V sched m hh hp
    rw [hV] at this
    exact prefix_singleton _ _ this
  have hB : ∀ (n k : Nat) (rest : List Thread), 4 ≤ k →
      (interleave (List.replicate n .worker ++ .caller :: (List.replicate k .worker ++ rest))
        (.sendMessage V :: destructorSteps) m).1.handled = [V] := ?_
  · refine ⟨hA, hB, fun h hm => ⟨fun sched => ?_, fun n k rest hk => ?_⟩⟩
    · rcases hA sched with h0 | h0
      · exact Or.inl ⟨h0, by rw [huser h hm sched, h0]; rfl⟩
      · exact Or.inr ⟨h0, by rw [huser h hm sched, h0]; rfl⟩
    · rw [huser h hm, hB n k rest hk]; rfl
  · intro n k rest hk
    obtain ⟨w1, w2, -, w4, w5, w6, -, w8⟩ :=
      workers_only n m hh hs hpc (.sendMessage V :: destructorSteps)
    rw [interleave_append, w1]
    set m1 := (interleave (List.replicate n .worker) (.sendMessage V :: destructorSteps) m).1
      with hm1
    simp only [interleave, SignalMonitor.callerStep]
    have hp1 : m1.pending = [] := by rw [w2, hp]
    have hd1 : m1.m_signalPipe.data = [] := by
      have := hp1
      simp only [SignalMonitor.pending, List.append_eq_nil] at this
      exact this.2
    obtain ⟨s1, -, -⟩ := sendMessage_spec m1 V
    obtain ⟨r1, r2⟩ := s1 (by rw [hd1, w8]; exact hcap)
    obtain ⟨g1, -, g3, g4, g5, -⟩ := sendMessage_pending m1 V
    set m2 := (m1.sendMessage V).2 with hm2
    have hp2 : m2.pending = [V] := by
      rw [g1, hp1, r1, hV]; simp
    have hh2 : m2.m_handler.isSome = true := by rw [g3, w5]; exact hh
    have hs2 : m2.m_needStop = false := by rw [g4]; exact w6
    have hpc2 : m2.m_thread ≠ .finished := by rw [g5]; exact w4
    have hneed : m2.need ≤ k := by
      have := need_le m2
      rw [r2, hd1] at this
      simp only [List.nil_append, List.length_singleton] at this
      omega
    rw [interleave_append]
    obtain ⟨v1, v2, -, -, v5, -⟩ := workers_only k m2 hh2 hs2 hpc2 destructorSteps
    have v3 := workers_drain k m2 hh2 hs2 hpc2 hneed destructorSteps
    rw [v1]
    set m3 := (interleave (List.replicate k .worker) destructorSteps m2).1 with hm3
    have := destructor_phase [V] [V] rest 0 m3 (by omega)
      (by rw [v3, hp2])
      (fun _ => ⟨by rw [v5]; exact hh2, by rw [v2, hp2]⟩)
      (fun h => by omega)
    simp only [List.drop_zero] at this
    exact List.Sublist.antisymm this.2.sublist this.1.sublist

theorem final_event_delivery_witness :
    (∀ sched : List Thread,
      (interleave sched (.sendMessage 15 :: destructorSteps) sampleMonitor).1.handled = [] ∨
      (interleave sched (.sendMessage 15 :: destructorSteps) sampleMonitor).1.handled = [15]) ∧
    (interleave (List.replicate 1 .worker ++ .caller :: (List.replicate 4 .worker ++
        [.caller, .caller, .caller, .worker, .worker, .worker, .worker, .caller]))
      (.sendMessage 15 :: destructorSteps) sampleMonitor).1.handled = [15] ∧
    (interleave (List.replicate 1 .worker ++ .caller :: (List.replicate 4 .worker ++
        [.caller, .caller, .caller, .worker, .worker, .worker, .worker, .caller]))
      (.sendMessage 15 :: destructorSteps) sampleMonitor).1.user = 1 :=
  ⟨(final_event_delivery sampleMonitor 15 (by decide) (by decide) rfl rfl (by decide) rfl
      (by decide)).1,
    (final_event_delivery sampleMonitor 15 (by decide) (by decide) rfl rfl (by decide) rfl
      (by decide)).2.1 1 4 _ (by decide),
    ((final_event_delivery sampleMonitor 15 (by decide) (by decide) rfl rfl (by decide) rfl
      (by decide)).2.2 (fun _ u => u + 1) rfl).2 1 4 _ (by decide)⟩

/-! ## Signal catchers -/

theorem setupSignalCatcher_spec (P : Process) (signo : Int) (handler : SigHandler) :
    (setupSignalCatcher P signo handler).2.sigmon = P.sigmon ∧
      (setupSignalCatcher P signo handler).2.settable = P.settable ∧
      (setupSignalCatcher P signo handler).2.m_catchers2 = P.m_catchers2 ∧
      (∀ other, other ≠ signo →
        (setupSignalCatcher P signo handler).2.disposition other = P.disposition other) ∧
      (P.settable signo = true →
        (setupSignalCatcher P signo handler).2.disposition signo = ⟨handler, true⟩) ∧
      (P.settable signo = false →
        (setupSignalCatcher P signo handler).2.disposition signo = P.disposition signo) := by
  unfold setupSignalCatcher commonSetupSigAction sigaction
  cases h : P.settable signo
  · simp
  · rw [if_pos rfl]
    refine ⟨rfl, rfl, rfl, fun other ho => ?_, fun _ => ?_, fun hf => by cases hf⟩
    · show Function.update P.disposition signo _ other = _
      rw [Function.update_noteq ho]
    · show Function.update P.disposition signo _ signo = _
      rw [Function.update_same]

theorem addSignal_spec (signo : Int) (this : Nat) (P : Process) :
    (addSignal signo this P).sigmon signo = some this ∧
      (∀ other, other ≠ signo → (addSignal signo this P).sigmon other = P.sigmon other) ∧
      (addSignal signo this P).settable = P.settable ∧
      signo ∈ (addSignal signo this P).m_catchers2 this ∧
      (∀ X, X ∈ P.m_catchers2 this → X ∈ (addSignal signo this P).m_catchers2 this) ∧
      (∀ mon, mon ≠ this → (addSignal signo this P).m_catchers2 mon = P.m_catchers2 mon) ∧
      (∀ other, other ≠ signo →
        (addSignal signo this P).disposition other = P.disposition other) ∧
      (P.settable signo = true →
        (addSignal signo this P).disposition signo = ⟨.catcher signo, true⟩) ∧
      (P.settable signo = false →
        (addSignal signo this P).disposition signo = P.disposition signo) := by
  obtain ⟨h1, h2, h3, h4, h5, h6⟩ := setupSignalCatcher_spec
    { P with sigmon := Function.update P.sigmon signo (some this) } signo (.catcher signo)
  simp only [addSignal, SignalCatcher.setup]
  refine ⟨by simp, fun other ho => ?_, h2, ?_, ?_, fun mon hm => ?_, h4, h5, h6⟩
  · simp [Function.update, ho, h1]
  · simp only [Function.update_same, insertCatcher]
    split
    · assumption
    · exact List.mem_cons_self _ _
  · intro X hX
    simp only [Function.update_same, insertCatcher, h3]
    split
    · exact hX
    · exact List.mem_cons_of_mem _ hX
  · simp [Function.update, hm, h3]

theorem release_spec (signo : Int) (mon : Nat) (P : Process) :
    (SignalCatcher.release signo mon P).settable = P.settable ∧
      (SignalCatcher.release signo mon P).m_catchers2 = P.m_catchers2 ∧
      (∀ other, other ≠ signo →
        (SignalCatcher.release signo mon P).sigmon other = P.sigmon other ∧
        (SignalCatcher.release signo mon P).disposition other = P.disposition other) ∧
      (P.sigmon signo ≠ some mon → SignalCatcher.release signo mon P = P) ∧
      (P.sigmon signo = some mon →
        (SignalCatcher.release signo mon P).sigmon signo = none ∧
        (P.settable signo = true →
          (SignalCatcher.release signo mon P).disposition signo = ⟨.SIG_DFL, true⟩) ∧
        (P.settable signo = false →
          (SignalCatcher.release signo mon P).disposition signo = P.disposition signo)) := by
  obtain ⟨h1, h2, h3, h4, h5, h6⟩ := setupSignalCatcher_spec P signo .SIG_DFL
  unfold SignalCatcher.release
  by_cases h : P.sigmon signo = some mon
  · rw [if_pos h]
    simp only [SignalCatcher.reset]
    refine ⟨h2, h3, fun other ho => ⟨?_, h4 other ho⟩, fun hn => absurd h hn,
      fun _ => ⟨by simp, h5, h6⟩⟩
    simp [Function.update, ho, h1]
  · rw [if_neg h]
    exact ⟨rfl, rfl, fun other ho => ⟨rfl, rfl⟩, fun _ => rfl, fun hc => absurd hc h⟩

/-- A release that is not the owner's for `X` leaves the monitor at `B` the owner of
`X`, and the disposition `D` of `X` as it is. -/
theorem release_keeps_owner (X Y : Int) (B B' : Nat) (D : SigAction) (P : Process)
    (hne : Y ≠ X ∨ B' ≠ B) (h1 : P.sigmon X = some B) (h2 : X ∈ P.m_catchers2 B)
    (h3 : P.disposition X = D) :
    (SignalCatcher.release Y B' P).sigmon X = some B ∧
      X ∈ (SignalCatcher.release Y B' P).m_catchers2 B ∧
      (SignalCatcher.release Y B' P).disposition X = D ∧
      (SignalCatcher.release Y B' P).settable = P.settable := by
  obtain ⟨r1, r2, r3, r4, -⟩ := release_spec Y B' P
  by_cases hY : Y = X
  · subst hY
    have hB : B' ≠ B := by
      rcases hne with h | h
      · exact absurd rfl h
      · exact h
    have : P.sigmon Y ≠ some B' := by
      rw [h1]; intro hc; exact hB (Option.some.inj hc).symm
    rw [r4 this]
    exact ⟨h1, h2, h3, rfl⟩
  · obtain ⟨a, b⟩ := r3 X (fun h => hY h.symm)
    exact ⟨by rw [a, h1], by rw [r2]; exact h2, by rw [b, h3], r1⟩

theorem releaseFold_keeps_owner (X : Int) (B B' : Nat) (D : SigAction) (hB : B' ≠ B)
    (L : List Int) :
    ∀ P : Process, P.sigmon X = some B → X ∈ P.m_catchers2 B → P.disposition X = D →
      (L.foldl (fun Q signo => SignalCatcher.release signo B' Q) P).sigmon X = some B ∧
      X ∈ (L.foldl (fun Q signo => SignalCatcher.release signo B' Q) P).m_catchers2 B ∧
      (L.foldl (fun Q signo => SignalCatcher.release signo B' Q) P).disposition X = D ∧
      (L.foldl (fun Q signo => SignalCatcher.release signo B' Q) P).settable = P.settable := by
  induction L with
  | nil => intro P h1 h2 h3; exact ⟨h1, h2, h3, rfl⟩
  | cons Y L ih =>
    intro P h1 h2 h3
    obtain ⟨a, b, c, d⟩ := release_keeps_owner X Y B B' D P (Or.inr hB) h1 h2 h3
    obtain ⟨a', b', c', d'⟩ := ih _ a b c
    exact ⟨a', b', c', d'.trans d⟩

/-- Operations that neither destroy `B` nor register `X` on another monitor leave `B`
the owner of `X`. -/
theorem applyOps_keeps_owner (X : Int) (B : Nat) (D : SigAction) (ops : List MonitorOp) :
    ∀ P : Process,
      (∀ op ∈ ops, op ≠ .destroy B ∧ ∀ B', op = .addSignal X B' → B' = B) →
      P.sigmon X = some B → X ∈ P.m_catchers2 B → P.disposition X = D →
      (P.settable X = true → D = ⟨.catcher X, true⟩) →
      (applyOps ops P).sigmon X = some B ∧ X ∈ (applyOps ops P).m_catchers2 B ∧
        (applyOps ops P).disposition X = D ∧ (applyOps ops P).settable = P.settable := by
  induction ops with
  | nil => intro P _ h1 h2 h3 _; exact ⟨h1, h2, h3, rfl⟩
  | cons op ops ih =>
    intro P hops h1 h2 h3 h4
    have hop := hops op (List.mem_cons_self _ _)
    have hrest : ∀ op' ∈ ops, op' ≠ .destroy B ∧ ∀ B', op' = .addSignal X B' → B' = B :=
      fun op' h => hops op' (List.mem_cons_of_mem _ h)
    have step : (op.apply P).sigmon X = some B ∧ X ∈ (op.apply P).m_catchers2 B ∧
        (op.apply P).disposition X = D ∧ (op.apply P).settable = P.settable := by
      cases op with
      | addSignal Y B' =>
        obtain ⟨a1, a2, a3, a4, a5, a6, a7, a8, a9⟩ := addSignal_spec Y B' P
        simp only [MonitorOp.apply]
        by_cases hY : Y = X
        · subst hY
          have hB : B' = B := hop.2 B' rfl
          subst hB
          refine ⟨a1, a4, ?_, a3⟩
          cases hs : P.settable Y
          · rw [a9 hs, h3]
          · rw [a8 hs, h4 hs]
        · have hXY : X ≠ Y := fun h => hY h.symm
          refine ⟨by rw [a2 X hXY, h1], ?_, by rw [a7 X hXY, h3], a3⟩
          by_cases hB : B = B'
          · subst hB; exact a5 X h2
          · rw [a6 B hB]; exact h2
      | destroy B' =>
        have hB : B' ≠ B := fun h => hop.1 (by rw [h])
        simp only [MonitorOp.apply, releaseCatchers]
        exact releaseFold_keeps_owner X B B' D hB _ P h1 h2 h3
    obtain ⟨s1, s2, s3, s4⟩ := step
    have := ih (op.apply P) hrest s1 s2 s3 (by rw [s4]; exact h4)
    simp only [applyOps, List.foldl_cons] at this ⊢
    exact ⟨this.1, this.2.1, this.2.2.1, by rw [this.2.2.2, s4]⟩

/-- The release loop of the owner's destructor: once `X` is met, no owner is recorded and
the disposition is the default if `sigaction()` accepts `X`. -/
theorem releaseFold_owner (X : Int) (B : Nat) (D : SigAction) (S : Int → Bool) (L : List Int) :
    ∀ P : Process, P.settable = S →
      (P.sigmon X = some B → P.disposition X = D →
        (X ∈ L →
          (L.foldl (fun Q signo => SignalCatcher.release signo B Q) P).sigmon X = none ∧
          (L.foldl (fun Q signo => SignalCatcher.release signo B Q) P).disposition X
            = if S X then ⟨.SIG_DFL, true⟩ else D)) ∧
      (P.sigmon X = none →
        (L.foldl (fun Q signo => SignalCatcher.release signo B Q) P).sigmon X = none ∧
        (L.foldl (fun Q signo => SignalCatcher.release signo B Q) P).disposition X
          = P.disposition X) := by
  induction L with
  | nil =>
    intro P _
    exact ⟨fun _ _ hX => by simp at hX, fun h => ⟨h, rfl⟩⟩
  | cons Y L ih =>
    intro P hS
    obtain ⟨r1, r2, r3, r4, r5⟩ := release_spec Y B P
    have hS' : (SignalCatcher.release Y B P).settable = S := by rw [r1, hS]
    obtain ⟨ih1, ih2⟩ := ih (SignalCatcher.release Y B P) hS'
    simp only [List.foldl_cons]
    constructor
    · intro h1 h3 hX
      by_cases hY : Y = X
      · subst hY
        obtain ⟨q1, q2, q3⟩ := r5 h1
        obtain ⟨t1, t2⟩ := ih2 q1
        refine ⟨t1, ?_⟩
        rw [t2]
        cases hs : S Y
        · rw [q3 (by rw [hS]; exact hs), h3]; simp
        · rw [q2 (by rw [hS]; exact hs)]; simp
      · obtain ⟨a, b⟩ := r3 X (fun h => hY h.symm)
        have hXL : X ∈ L := by
          simp only [List.mem_cons] at hX
          rcases hX with h | h
          · exact absurd h.symm hY
          · exact h
        exact ih1 (by rw [a, h1]) (by rw [b, h3]) hXL
    · intro h1
      have keep : (SignalCatcher.release Y B P).sigmon X = none ∧
          (SignalCatcher.release Y B P).disposition X = P.disposition X := by
        by_cases hY : Y = X
        · subst hY
          have : P.sigmon Y ≠ some B := by rw [h1]; simp
          rw [r4 this]; exact ⟨h1, rfl⟩
        · obtain ⟨a, b⟩ := r3 X (fun h => hY h.symm)
          exact ⟨by rw [a, h1], b⟩
      obtain ⟨t1, t2⟩ := ih2 keep.1
      exact ⟨t1, by rw [t2, keep.2]⟩

/-- C10, as stated, fails for `SIGKILL`: after `addSignal<9>()` on the monitor at address
1 the owner recorded for signal 9 is that monitor, but `sigaction()` has refused the
change and the disposition of signal 9 is still the default, not the catcher. -/
theorem sigkill_catcher_not_installed :
    (addSignal 9 1 bootProcess).sigmon 9 = some 1 ∧
      ((addSignal 9 1 bootProcess).disposition 9).sa_handler = .SIG_DFL ∧
      ((addSignal 9 1 bootProcess).disposition 9).sa_handler ≠ .catcher 9 := by
  decide

/-- C10, amended: for every signal number `X` and monitor `B`, after `B.addSignal<X>()`
the owner recorded for `X` is `B`, and if `sigaction()` accepts `X` the disposition
installed for `X` is the monitor's catcher (with `SA_RESTART`); if `B` is then destroyed,
no other monitor having registered `X` in between, no owner is recorded for `X` and, if
`sigaction()` accepts `X`, the disposition of `X` is the default.  For an `X` that
`sigaction()` refuses, the disposition stays what it was before `addSignal`. -/
theorem addSignal_then_destroy (P : Process) (X : Int) (B : Nat) (ops : List MonitorOp)
    (hops : ∀ op ∈ ops, op ≠ .destroy B ∧ ∀ B', op = .addSignal X B' → B' = B) :
    (addSignal X B P).sigmon X = some B ∧
    (P.settable X = true →
      (addSignal X B P).disposition X = ⟨.catcher X, true⟩) ∧
    (releaseCatchers B (applyOps ops (addSignal X B P))).sigmon X = none ∧
    (P.settable X = true →
      ((releaseCatchers B (applyOps ops (addSignal X B P))).disposition X).sa_handler
        = .SIG_DFL) ∧
    (P.settable X = false →
      (addSignal X B P).disposition X = P.disposition X ∧
      (releaseCatchers B (applyOps ops (addSignal X B P))).disposition X
        = P.disposition X) := by
  obtain ⟨a1, -, a3, a4, -, -, -, a8, a9⟩ := addSignal_spec X B P
  have hD : (addSignal X B P).settable X = true →
      (addSignal X B P).disposition X = ⟨.catcher X, true⟩ := by
    intro h; rw [a3] at h; exact a8 h
  obtain ⟨b1, b2, b3, b4⟩ := applyOps_keeps_owner X B ((addSignal X B P).disposition X) ops
    (addSignal X B P) hops a1 a4 rfl hD
  obtain ⟨c1, -⟩ := releaseFold_owner X B ((addSignal X B P).disposition X) P.settable
    ((applyOps ops (addSignal X B P)).m_catchers2 B) (applyOps ops (addSignal X B P))
    (by rw [b4, a3])
  obtain ⟨d1, d2⟩ := c1 b1 b3 b2
  refine ⟨a1, a8, d1, fun hs => ?_, fun hs => ⟨a9 hs, ?_⟩⟩
  · unfold releaseCatchers
    rw [d2, hs]; rfl
  · unfold releaseCatchers
    rw [d2, hs, a9 hs]; rfl

theorem addSignal_then_destroy_witness :
    (addSignal 15 1 bootProcess).sigmon 15 = some 1 ∧
    (addSignal 15 1 bootProcess).disposition 15 = ⟨.catcher 15, true⟩ ∧
    (releaseCatchers 1 (applyOps [.addSignal 2 1, .addSignal 15 1, .addSignal 1 2, .destroy 2]
      (addSignal 15 1 bootProcess))).sigmon 15 = none ∧
    ((releaseCatchers 1 (applyOps [.addSignal 2 1, .addSignal 15 1, .addSignal 1 2, .destroy 2]
      (addSignal 15 1 bootProcess))).disposition 15).sa_handler = .SIG_DFL :=
  have h := addSignal_then_destroy bootProcess 15 1
    [.addSignal 2 1, .addSignal 15 1, .addSignal 1 2, .destroy 2]
    (by
      intro op hop
      simp only [List.mem_cons, List.mem_singleton, List.not_mem_nil, or_false] at hop
      rcases hop with rfl | rfl | rfl | rfl <;> simp)
  ⟨h.1, h.2.1 (by decide), h.2.2.1, h.2.2.2.1 (by decide)⟩

/-! ## Two monitors on one signal -/

theorem release_unsettable (X Y : Int) (B : Nat) (P : Process)
    (h : P.settable X = false) :
    (SignalCatcher.release Y B P).disposition X = P.disposition X ∧
      (SignalCatcher.release Y B P).settable = P.settable := by
  obtain ⟨r1, -, r3, r4, r5⟩ := release_spec Y B P
  refine ⟨?_, r1⟩
  by_cases hY : Y = X
  · subst hY
    by_cases hs : P.sigmon Y = some B
    · exact (r5 hs).2.2 h
    · rw [r4 hs]
  · exact (r3 X (fun hx => hY hx.symm)).2

/-- No operation changes the disposition of a signal number that `sigaction()` refuses. -/
theorem applyOps_unsettable (X : Int) (ops : List MonitorOp) :
    ∀ P : Process, P.settable X = false →
      (applyOps ops P).disposition X = P.disposition X ∧
      (applyOps ops P).settable = P.settable := by
  induction ops with
  | nil => intro P _; exact ⟨rfl, rfl⟩
  | cons op ops ih =>
    intro P h
    have step : (op.apply P).disposition X = P.disposition X ∧
        (op.apply P).settable = P.settable := by
      cases op with
      | addSignal Y B =>
        obtain ⟨-, -, a3, -, -, -, a7, -, a9⟩ := addSignal_spec Y B P
        simp only [MonitorOp.apply]
        refine ⟨?_, a3⟩
        by_cases hY : Y = X
        · subst hY; exact a9 h
        · exact a7 X (fun hx => hY hx.symm)
      | destroy B =>
        simp only [MonitorOp.apply, releaseCatchers]
        generalize P.m_catchers2 B = L
        induction L generalizing P with
        | nil => exact ⟨rfl, rfl⟩
        | cons Y L ihL =>
          obtain ⟨q1, q2⟩ := release_unsettable X Y B P h
          obtain ⟨q3, q4⟩ := ihL (SignalCatcher.release Y B P) (by rw [q2]; exact h)
          simp only [List.foldl_cons]
          exact ⟨q3.trans q1, q4.trans q2⟩
    obtain ⟨i1, i2⟩ := ih (op.apply P) (by rw [step.2]; exact h)
    simp only [applyOps, List.foldl_cons] at i1 i2 ⊢
    exact ⟨i1.trans step.1, i2.trans step.2⟩

/-- From start-up on, a signal number that `sigaction()` refuses has the default
disposition whatever the monitors do. -/
theorem boot_unsettable_default (X : Int) (ops : List MonitorOp)
    (h : bootProcess.settable X = false) :
    ((applyOps ops bootProcess).disposition X).sa_handler = .SIG_DFL ∧
      (applyOps ops bootProcess).settable X = false := by
  obtain ⟨h1, h2⟩ := applyOps_unsettable X ops bootProcess h
  rw [h1, h2]
  exact ⟨rfl, h⟩

end Supervise
